import Mathlib

/-!
Verification of the kart native components against their sources:
the spatial filter extension (src/vendor/spatial-filter/spatial_filter.cpp),
the cli helper shim (src/cli_helper/kart.c) and the libkart tree walker
(src/libkart/src/kart/tree_walker.cpp, include/kart/tree_walker.hpp).

Modelling conventions: C doubles are modelled as exact rationals; machine
integers as Nat with explicit reduction modulo 2^64 where overflow can occur
(a right shift is division by a power of two, a left shift on uint64 is
multiplication followed by reduction modulo 2^64, and a bitwise or of values
occupying disjoint bit ranges is addition); code that can abort (failed
assert, abort()) returns Option, with none for the aborting path; external
effects (sqlite, sockets, semaphores) are oracles passed as arguments.
-/

namespace Kart

/-- Shallow embedding of range_overlaps (spatial_filter.cpp lines 170-185).
A C++ bool comparison `x > y` is written `if x > y then true else false`.
The C function aborts via abort() when a1 > a2 or b1 > b2; the aborting
path is modelled as none. -/
def range_overlaps (a1 a2 b1 b2 : ℚ) : Option Bool :=
  if a1 > a2 ∨ b1 > b2 then none
  else if b1 < a1 then some (if b2 > a1 then true else false)
  else if a1 < b1 then some (if a2 > b1 then true else false)
  else some (if b2 ≠ b1 ∧ a2 ≠ a1 then true else false)

/-- Shallow embedding of cyclic_range_overlaps (spatial_filter.cpp lines
187-208): normalise each interval by adding 360 to its right edge when the
left edge is larger, test linear overlap, and on failure shift whichever
interval has the smaller left edge up by 360 and retest. -/
def cyclic_range_overlaps (a1 a2 b1 b2 : ℚ) : Option Bool :=
  let a2n := if a1 > a2 then a2 + 360 else a2
  let b2n := if b1 > b2 then b2 + 360 else b2
  Option.bind (range_overlaps a1 a2n b1 b2n) (fun r1 =>
    if r1 then some true
    else if a1 < b1 then range_overlaps (a1 + 360) (a2n + 360) b1 b2n
    else range_overlaps a1 a2n (b1 + 360) (b2n + 360))

/-- Helper: a Bool written as an if-then-else over a proposition is true
iff the proposition holds. -/
lemma ite_bool_eq_true_iff (p : Prop) [Decidable p] :
    ((if p then true else false) = true) ↔ p := by
  split <;> simp [*]

/-- Helper: on ordered intervals range_overlaps never aborts. -/
lemma range_overlaps_isSome {a1 a2 b1 b2 : ℚ} (ha : a1 ≤ a2) (hb : b1 ≤ b2) :
    ∃ r, range_overlaps a1 a2 b1 b2 = some r := by
  unfold range_overlaps
  rw [if_neg (by push_neg; exact ⟨ha, hb⟩)]
  split_ifs <;> exact ⟨_, rfl⟩

/-- C1 counterexample: at a = (0, 0) and b = (0, 1) the left edges coincide
and at least one interval (namely b) has non-zero width, so the claim
predicts true, but range_overlaps returns false: with coinciding left edges
the code requires BOTH intervals to have non-zero width. -/
theorem range_overlaps_C1_cex :
    ((0 : ℚ) ≠ 1) ∧ range_overlaps 0 0 0 1 = some false := by
  refine ⟨by norm_num, ?_⟩
  norm_num [range_overlaps]

/-- C1 (amended): for ordered intervals, when the left edges coincide the
predicate is true iff BOTH intervals have non-zero width; otherwise it is
true iff the interval whose left edge is smaller ends strictly to the right
of the other interval's left edge. When a1 > a2 or b1 > b2 the assertion
fails and the process aborts (modelled as none). -/
theorem range_overlaps_C1 : ∀ a1 a2 b1 b2 : ℚ,
    (a1 ≤ a2 → b1 ≤ b2 → ∃ r, range_overlaps a1 a2 b1 b2 = some r ∧
      (r = true ↔ (if a1 = b1 then a2 ≠ a1 ∧ b2 ≠ b1
                   else if b1 < a1 then b2 > a1 else a2 > b1))) ∧
    (a1 > a2 ∨ b1 > b2 → range_overlaps a1 a2 b1 b2 = none) := by
  intro a1 a2 b1 b2
  constructor
  · intro ha hb
    unfold range_overlaps
    rw [if_neg (by push_neg; exact ⟨ha, hb⟩)]
    rcases lt_trichotomy a1 b1 with h | h | h
    · rw [if_neg (not_lt.mpr h.le), if_pos h]
      refine ⟨_, rfl, ?_⟩
      rw [ite_bool_eq_true_iff, if_neg (ne_of_lt h), if_neg (not_lt.mpr h.le)]
    · have h1 : ¬ b1 < a1 := by rw [h]; exact lt_irrefl b1
      have h2 : ¬ a1 < b1 := by rw [h]; exact lt_irrefl b1
      rw [if_neg h1, if_neg h2]
      refine ⟨_, rfl, ?_⟩
      rw [ite_bool_eq_true_iff, if_pos h]
      constructor
      · rintro ⟨hx, hy⟩; exact ⟨hy, hx⟩
      · rintro ⟨hx, hy⟩; exact ⟨hy, hx⟩
    · rw [if_pos h]
      refine ⟨_, rfl, ?_⟩
      rw [ite_bool_eq_true_iff, if_neg (ne_of_gt h), if_pos h]
  · intro h
    unfold range_overlaps
    rw [if_pos h]

/-- C1 witness: the amended characterisation applied at two concrete
inputs, one ordered and one hitting the aborting path. -/
theorem range_overlaps_C1_witness :
    (∃ r, range_overlaps 1 2 0 3 = some r ∧ (r = true ↔
      (if (1 : ℚ) = 0 then (2 : ℚ) ≠ 1 ∧ (3 : ℚ) ≠ 0
       else if (0 : ℚ) < 1 then (3 : ℚ) > 1 else (2 : ℚ) > 0))) ∧
    range_overlaps 1 0 0 0 = none := by
  constructor
  · exact (range_overlaps_C1 1 2 0 3).1 (by norm_num) (by norm_num)
  · exact (range_overlaps_C1 1 0 0 0).2 (by norm_num)

/-- C3: the cyclic longitude-overlap predicate on the three concrete
antimeridian examples, together with totality (no assertion failure) for
all inputs within the legal longitude range. -/
theorem cyclic_range_overlaps_C3 :
    cyclic_range_overlaps 170 (-170) 175 (-175) = some true ∧
    cyclic_range_overlaps (-170) (-160) 160 170 = some false ∧
    cyclic_range_overlaps (-170) (-160) 160 210 = some true ∧
    (∀ a1 a2 b1 b2 : ℚ, -180 ≤ a1 → a1 ≤ 180 → -180 ≤ a2 → a2 ≤ 180 →
      -180 ≤ b1 → b1 ≤ 180 → -180 ≤ b2 → b2 ≤ 180 →
      (cyclic_range_overlaps a1 a2 b1 b2).isSome = true) := by
  refine ⟨?_, ?_, ?_, ?_⟩
  · have hA : range_overlaps 170 (-170 + 360) 175 (-175 + 360) = some true := by
      norm_num [range_overlaps]
    simp only [cyclic_range_overlaps]
    rw [if_pos (show (170 : ℚ) > -170 by norm_num),
      if_pos (show (175 : ℚ) > -175 by norm_num), hA]
    simp [Option.bind]
  · have hA : range_overlaps (-170) (-160) 160 170 = some false := by
      norm_num [range_overlaps]
    have hB : range_overlaps (-170 + 360) (-160 + 360) 160 170 = some false := by
      norm_num [range_overlaps]
    simp only [cyclic_range_overlaps]
    rw [if_neg (show ¬ (-170 : ℚ) > -160 by norm_num),
      if_neg (show ¬ (160 : ℚ) > 170 by norm_num), hA]
    simp only [Option.bind]
    rw [if_neg (by simp), if_pos (show (-170 : ℚ) < 160 by norm_num), hB]
  · have hA : range_overlaps (-170) (-160) 160 210 = some false := by
      norm_num [range_overlaps]
    have hB : range_overlaps (-170 + 360) (-160 + 360) 160 210 = some true := by
      norm_num [range_overlaps]
    simp only [cyclic_range_overlaps]
    rw [if_neg (show ¬ (-170 : ℚ) > -160 by norm_num),
      if_neg (show ¬ (160 : ℚ) > 210 by norm_num), hA]
    simp only [Option.bind]
    rw [if_neg (by simp), if_pos (show (-170 : ℚ) < 160 by norm_num), hB]
  · intro a1 a2 b1 b2 h1 h2 h3 h4 h5 h6 h7 h8
    have ha : a1 ≤ (if a1 > a2 then a2 + 360 else a2) := by split <;> linarith
    have hb : b1 ≤ (if b1 > b2 then b2 + 360 else b2) := by split <;> linarith
    obtain ⟨r, hr⟩ := range_overlaps_isSome ha hb
    simp only [cyclic_range_overlaps]
    rw [hr]
    simp only [Option.bind]
    cases r
    · rw [if_neg (by simp)]
      split
      · obtain ⟨r2, hr2⟩ :=
          range_overlaps_isSome (add_le_add_right ha 360) hb
        rw [hr2]; simp
      · obtain ⟨r2, hr2⟩ :=
          range_overlaps_isSome ha (add_le_add_right hb 360)
        rw [hr2]; simp
    · simp

/-- C3 witness: the totality conjunct applied at a concrete in-range
input. -/
theorem cyclic_range_overlaps_C3_witness :
    (cyclic_range_overlaps 10 20 15 25).isSome = true :=
  cyclic_range_overlaps_C3.2.2.2 10 20 15 25 (by norm_num) (by norm_num)
    (by norm_num) (by norm_num) (by norm_num) (by norm_num) (by norm_num)
    (by norm_num)

/-!
EnvelopeEncoder (spatial_filter.cpp lines 30-152). The constant fields of
the class become functions of B, the bits-per-value parameter; a field
whose C initialiser shifts an operand by its full width or more (which is
undefined behaviour) becomes an Option that is none exactly there, and
every member function that reads such a field propagates the none, the
way the rest of this file models undefined behaviour and aborts.
max(0, BITS_PER_ENVELOPE - 64) is truncated subtraction on Nat.
-/

def BITS_PER_ENVELOPE (B : ℕ) : ℕ := B * 4

def BYTES_PER_ENVELOPE (B : ℕ) : ℕ := BITS_PER_ENVELOPE B / 8

/-- VALUE_MAX_INT is (1 << BITS_PER_VALUE) - 1 computed on a 32-bit int
(spatial_filter.cpp line 58): a shift by 32 or more is an undefined
full-width shift, modelled as none; below that the value is 2^B - 1. -/
def VALUE_MAX_INT (B : ℕ) : Option ℕ :=
  if B < 32 then some (2 ^ B - 1) else none

def NUM_LO_BITS (B : ℕ) : ℕ := min 64 (BITS_PER_ENVELOPE B)

def NUM_LO_BYTES (B : ℕ) : ℕ := NUM_LO_BITS B / 8

def MAX_LO_BITS (B : ℕ) : ℕ := 2 ^ NUM_LO_BITS B - 1

def NUM_HI_BITS (B : ℕ) : ℕ := BITS_PER_ENVELOPE B - 64

def NUM_HI_BYTES (B : ℕ) : ℕ := NUM_HI_BITS B / 8

/-- MAX_HI_BITS is (1ull << NUM_HI_BITS) - 1 on uint64 (spatial_filter.cpp
line 66): NUM_HI_BITS reaches 64 at B = 32, and a shift by 64 or more is
an undefined full-width shift, modelled as none. (MAX_LO_BITS needs no
guard: its C initialiser tests NUM_LO_BITS == 64 and substitutes the
uint64 maximum, which equals 2^NUM_LO_BITS - 1 in both arms.) -/
def MAX_HI_BITS (B : ℕ) : Option ℕ :=
  if NUM_HI_BITS B < 64 then some (2 ^ NUM_HI_BITS B - 1) else none

/-- Shallow embedding of EnvelopeEncoder::encode_value. A constructor
whose VALUE_MAX_INT initialiser was undefined propagates none; the
asserts (value within range, encoded at most VALUE_MAX_INT) are guards
returning none, and the (uint32) cast of the rounded double additionally
requires the rounded value to be non-negative. -/
def encode_value (B : ℕ) (value min_value max_value : ℚ) (round_up : Bool) :
    Option ℕ :=
  match VALUE_MAX_INT B with
  | none => none
  | some vmax =>
    if min_value ≤ value ∧ value ≤ max_value then
      let normalised := (value - min_value) / (max_value - min_value)
      let scaled := normalised * (vmax : ℚ)
      let encoded : ℤ := if round_up then ⌈scaled⌉ else ⌊scaled⌋
      if 0 ≤ encoded ∧ encoded.toNat ≤ vmax then some encoded.toNat
      else none
    else none

/-- Shallow embedding of EnvelopeEncoder::decode_value, with the assert
as an Option guard and an undefined VALUE_MAX_INT propagated as none. -/
def decode_value (B : ℕ) (encoded : ℕ) (min_value max_value : ℚ) : Option ℚ :=
  match VALUE_MAX_INT B with
  | none => none
  | some vmax =>
    if encoded ≤ vmax then
      some ((encoded : ℚ) / (vmax : ℚ) * (max_value - min_value)
        + min_value)
    else none

/-- Shallow embedding of EnvelopeEncoder::shift_left on the 128-bit
register split into two uint64 halves. carry_bits = lo >> (64 - shift) is
division by 2^(64-shift); hi << shift on uint64 is multiplication reduced
modulo 2^64, and its bitwise or with carry_bits (which occupies only the
cleared low shift bits) is addition; lo << shift is multiplication reduced
modulo 2^64. -/
def shift_left (hi lo b : ℕ) : ℕ × ℕ :=
  (hi * 2 ^ b % 2 ^ 64 + lo / 2 ^ (64 - b), lo * 2 ^ b % 2 ^ 64)

/-- Shallow embedding of EnvelopeEncoder::shift_right: carry_bits =
hi << (64 - shift) on uint64 is hi % 2^shift times 2^(64-shift), and its
bitwise or with lo >> shift (which is below 2^(64-shift)) is addition. -/
def shift_right (hi lo b : ℕ) : ℕ × ℕ :=
  (hi / 2 ^ b, lo / 2 ^ b + hi % 2 ^ b * 2 ^ (64 - b))

/-- Shallow embedding of EnvelopeEncoder::uintX_to_bytes_BE: the byte
written at iteration i (i = 0, 8, ..., counted here as j = i / 8) is
(input >> (num_bits - i - 8)) & 0xff. -/
def uintX_to_bytes_BE (input : ℕ) (num_bits : ℕ) : List ℕ :=
  (List.range (num_bits / 8)).map (fun j => input / 2 ^ (num_bits - 8 * j - 8) % 256)

/-- Shallow embedding of EnvelopeEncoder::bytes_to_uintX_BE: each
consumed byte is added shifted by (num_bits - i - 8); modelled by
recursion over num_bits in steps of 8, consuming one byte each step. -/
def bytes_to_uintX_BE (num_bits : ℕ) (input : List ℕ) : ℕ :=
  if num_bits < 8 then 0
  else input.headD 0 * 2 ^ (num_bits - 8) + bytes_to_uintX_BE (num_bits - 8) input.tail
termination_by num_bits
decreasing_by omega

/-- Shallow embedding of EnvelopeEncoder::encode: the four values are
packed most-significant first (w, s, e, n) through the two-word shift
register; lo_bits |= v with the low B bits of lo_bits clear is addition.
The two asserts are modelled as a guard; an undefined MAX_HI_BITS (and
the undefined VALUE_MAX_INT inside encode_value, which is none on the
same B) propagates as none. -/
def encode (B : ℕ) (w s e n : ℚ) : Option (List ℕ) :=
  match MAX_HI_BITS B, encode_value B w (-180) 180 false,
      encode_value B s (-90) 90 false, encode_value B e (-180) 180 true,
      encode_value B n (-90) 90 true with
  | some mhi, some ew, some es, some ee, some en =>
    let p1 := shift_left 0 ew B
    let p2 := shift_left p1.1 (p1.2 + es) B
    let p3 := shift_left p2.1 (p2.2 + ee) B
    let hi := p3.1
    let lo := p3.2 + en
    if lo ≤ MAX_LO_BITS B ∧ hi ≤ mhi then
      some (uintX_to_bytes_BE hi (NUM_HI_BITS B)
        ++ uintX_to_bytes_BE lo (NUM_LO_BITS B))
    else none
  | _, _, _, _, _ => none

/-- Shallow embedding of EnvelopeEncoder::decode: read the two halves
big-endian from the byte positions encode wrote them to, then unpack n,
e, s, w in that order. An undefined MAX_HI_BITS propagates as none;
whenever it is defined B is below 32, so lo_bits & VALUE_MAX_INT is the
well-defined reduction mod 2^B. Asserts are modelled as guards / Option
results. -/
def decode (B : ℕ) (input : List ℕ) : Option (ℚ × ℚ × ℚ × ℚ) :=
  match MAX_HI_BITS B with
  | none => none
  | some mhi =>
  let hi := bytes_to_uintX_BE (NUM_HI_BITS B) (input.take (NUM_HI_BYTES B))
  let lo := bytes_to_uintX_BE (NUM_LO_BITS B) (input.drop (NUM_HI_BYTES B))
  if lo ≤ MAX_LO_BITS B ∧ hi ≤ mhi then
    match decode_value B (lo % 2 ^ B) (-90) 90 with
    | none => none
    | some vn =>
      let q1 := shift_right hi lo B
      match decode_value B (q1.2 % 2 ^ B) (-180) 180 with
      | none => none
      | some ve =>
        let q2 := shift_right q1.1 q1.2 B
        match decode_value B (q2.2 % 2 ^ B) (-90) 90 with
        | none => none
        | some vs =>
          let q3 := shift_right q2.1 q2.2 B
          match decode_value B (q3.2 % 2 ^ B) (-180) 180 with
          | none => none
          | some vw => some (vw, vs, ve, vn)
  else none

/-- Helper: the big-endian serialiser emits num_bits / 8 bytes. -/
lemma length_uintX_to_bytes (x nb : ℕ) :
    (uintX_to_bytes_BE x nb).length = nb / 8 := by
  simp [uintX_to_bytes_BE]

/-- Helper: dividing then truncating to a byte ignores bits at or above
m + 8. -/
lemma mod_pow_div_mod_256 (x m M : ℕ) (h : m + 8 ≤ M) :
    x % 2 ^ M / 2 ^ m % 256 = x / 2 ^ m % 256 := by
  have h1 : (2 : ℕ) ^ M = 2 ^ m * 2 ^ (M - m) := by
    rw [← pow_add]; congr 1; omega
  rw [h1, Nat.mod_mul_right_div_self]
  have h2 : (256 : ℕ) ∣ 2 ^ (M - m) := by
    have : (256 : ℕ) = 2 ^ 8 := by norm_num
    rw [this]; exact pow_dvd_pow 2 (by omega)
  rw [Nat.mod_mod_of_dvd _ h2]

/-- Helper: peeling the leading byte off the big-endian serialisation. -/
lemma uintX_to_bytes_succ (x k : ℕ) :
    uintX_to_bytes_BE x (8 * (k + 1)) =
      (x / 2 ^ (8 * k) % 256) :: uintX_to_bytes_BE (x % 2 ^ (8 * k)) (8 * k) := by
  unfold uintX_to_bytes_BE
  have h8 : 8 * (k + 1) / 8 = k + 1 := by omega
  have h8k : 8 * k / 8 = k := by omega
  rw [h8, h8k, List.range_succ_eq_map, List.map_cons, List.map_map]
  congr 1
  refine List.map_congr_left ?_
  intro j hj
  have hj' : j < k := List.mem_range.mp hj
  simp only [Function.comp]
  have hexp : 8 * (k + 1) - 8 * Nat.succ j - 8 = 8 * k - 8 * j - 8 := by omega
  rw [hexp, mod_pow_div_mod_256 x (8 * k - 8 * j - 8) (8 * k) (by omega)]

/-- Helper: deserialising the serialisation of a value that fits in
8 * k bits returns that value. -/
lemma bytes_roundtrip (k : ℕ) : ∀ x, x < 2 ^ (8 * k) →
    bytes_to_uintX_BE (8 * k) (uintX_to_bytes_BE x (8 * k)) = x := by
  induction k with
  | zero =>
    intro x hx
    rw [bytes_to_uintX_BE]
    simp only [Nat.mul_zero, pow_zero] at hx ⊢
    rw [if_pos (by omega)]
    omega
  | succ k ih =>
    intro x hx
    rw [uintX_to_bytes_succ, bytes_to_uintX_BE, if_neg (by omega)]
    simp only [List.headD_cons, List.tail_cons]
    have hsub : 8 * (k + 1) - 8 = 8 * k := by omega
    rw [hsub]
    have hdivlt : x / 2 ^ (8 * k) < 256 := by
      apply Nat.div_lt_of_lt_mul
      calc x < 2 ^ (8 * (k + 1)) := hx
        _ = 2 ^ (8 * k) * 256 := by
            rw [show 8 * (k + 1) = 8 * k + 8 by omega, pow_add]; norm_num
    rw [Nat.mod_eq_of_lt hdivlt,
      ih (x % 2 ^ (8 * k)) (Nat.mod_lt _ (by positivity)), mul_comm]
    exact Nat.div_add_mod x (2 ^ (8 * k))

/-- Helper: a two-word decomposition determines div and mod by 2^64. -/
lemma div_mod_of_repr (H L M x : ℕ) (hM : 0 < M) (h : x = H * M + L)
    (hL : L < M) : x / M = H ∧ x % M = L := by
  subst h
  constructor
  · rw [mul_comm, Nat.mul_add_div hM, Nat.div_eq_of_lt hL, add_zero]
  · rw [mul_comm, Nat.mul_add_mod, Nat.mod_eq_of_lt hL]

/-- Helper: one shift-accumulate step of encode. If the two-word register
holds C (with the low word in range and C small enough that no bits are
lost), then after shift_left by b and an or-accumulate of v < 2^b the
register holds C * 2^b + v. -/
lemma shift_left_step (H L C v b : ℕ) (hb : b ≤ 64)
    (hrepr : C = H * 2 ^ 64 + L) (hL : L < 2 ^ 64) (hC : C < 2 ^ (128 - b))
    (hv : v < 2 ^ b) :
    (shift_left H L b).1 * 2 ^ 64 + ((shift_left H L b).2 + v)
        = C * 2 ^ b + v ∧
      (shift_left H L b).2 + v < 2 ^ 64 := by
  have hef : (2 : ℕ) ^ b * 2 ^ (64 - b) = 2 ^ 64 := by
    rw [← pow_add]; congr 1; omega
  have he0 : (0 : ℕ) < 2 ^ b := Nat.pos_pow_of_pos b (by norm_num)
  have hf0 : (0 : ℕ) < 2 ^ (64 - b) := Nat.pos_pow_of_pos _ (by norm_num)
  have hsplit : (2 : ℕ) ^ (128 - b) = 2 ^ (64 - b) * 2 ^ 64 := by
    rw [← pow_add]; congr 1; omega
  have hH : H < 2 ^ (64 - b) := by
    have h1 : H * 2 ^ 64 ≤ C := by rw [hrepr]; exact Nat.le_add_right _ _
    have h2 : H * 2 ^ 64 < 2 ^ (64 - b) * 2 ^ 64 := by
      rw [← hsplit]; exact lt_of_le_of_lt h1 hC
    exact lt_of_mul_lt_mul_right h2 (Nat.zero_le _)
  have hHe : H * 2 ^ b < 2 ^ 64 := by
    calc H * 2 ^ b < 2 ^ (64 - b) * 2 ^ b := mul_lt_mul_of_pos_right hH he0
      _ = 2 ^ 64 := by rw [mul_comm]; exact hef
  have hLq := Nat.div_add_mod L (2 ^ (64 - b))
  have hLr : L % 2 ^ (64 - b) < 2 ^ (64 - b) := Nat.mod_lt _ hf0
  have hhi : H * 2 ^ b % 2 ^ 64 = H * 2 ^ b := Nat.mod_eq_of_lt hHe
  have hlo : L * 2 ^ b % 2 ^ 64 = L % 2 ^ (64 - b) * 2 ^ b := by
    conv_lhs => rw [← hLq, add_mul, ← hef,
      show 2 ^ (64 - b) * (L / 2 ^ (64 - b)) * 2 ^ b
        = 2 ^ b * 2 ^ (64 - b) * (L / 2 ^ (64 - b)) by ring]
    rw [Nat.mul_add_mod]
    exact Nat.mod_eq_of_lt (by
      calc L % 2 ^ (64 - b) * 2 ^ b < 2 ^ (64 - b) * 2 ^ b :=
            mul_lt_mul_of_pos_right hLr he0
        _ = 2 ^ b * 2 ^ (64 - b) := by ring)
  constructor
  · simp only [shift_left, hhi, hlo]
    conv_rhs => rw [hrepr, ← hLq]
    rw [← hef]
    ring
  · simp only [shift_left, hlo]
    calc L % 2 ^ (64 - b) * 2 ^ b + v
        < L % 2 ^ (64 - b) * 2 ^ b + 2 ^ b := Nat.add_lt_add_left hv _
      _ = (L % 2 ^ (64 - b) + 1) * 2 ^ b := by ring
      _ ≤ 2 ^ (64 - b) * 2 ^ b :=
          mul_le_mul_right' (Nat.succ_le_of_lt hLr) _
      _ = 2 ^ 64 := by rw [mul_comm]; exact hef

/-- Helper: little arithmetic fact used to bound the low word after a
right shift. -/
lemma sub_one_add_sub_one_mul_lt (e f : ℕ) (he : 0 < e) (hf : 0 < f) :
    f - 1 + (e - 1) * f < e * f := by
  rw [tsub_mul, one_mul]
  have h1 : f ≤ e * f := Nat.le_mul_of_pos_left f he
  revert h1 hf
  generalize e * f = P
  intro hf h1
  omega

/-- Helper: one step of decode. shift_right by b moves the two-word
register from C to C / 2^b. -/
lemma shift_right_step (H L b : ℕ) (hb : b ≤ 64) (hL : L < 2 ^ 64) :
    (shift_right H L b).1 * 2 ^ 64 + (shift_right H L b).2
        = (H * 2 ^ 64 + L) / 2 ^ b ∧
      (shift_right H L b).2 < 2 ^ 64 := by
  have hef : (2 : ℕ) ^ b * 2 ^ (64 - b) = 2 ^ 64 := by
    rw [← pow_add]; congr 1; omega
  have he0 : (0 : ℕ) < 2 ^ b := Nat.pos_pow_of_pos b (by norm_num)
  have hf0 : (0 : ℕ) < 2 ^ (64 - b) := Nat.pos_pow_of_pos _ (by norm_num)
  have key : (H * 2 ^ 64 + L) / 2 ^ b = H * 2 ^ (64 - b) + L / 2 ^ b := by
    rw [← hef, show H * (2 ^ b * 2 ^ (64 - b)) + L
      = 2 ^ b * (H * 2 ^ (64 - b)) + L by ring, Nat.mul_add_div he0]
  constructor
  · simp only [shift_right]
    rw [key]
    conv_rhs =>
      rw [show H = 2 ^ b * (H / 2 ^ b) + H % 2 ^ b from
        (Nat.div_add_mod H (2 ^ b)).symm]
    rw [← hef]
    ring
  · simp only [shift_right]
    have hlt : L / 2 ^ b < 2 ^ (64 - b) := by
      apply Nat.div_lt_of_lt_mul
      rw [hef]; exact hL
    have h1 : L / 2 ^ b ≤ 2 ^ (64 - b) - 1 := Nat.le_pred_of_lt hlt
    have h2 : H % 2 ^ b ≤ 2 ^ b - 1 := Nat.le_pred_of_lt (Nat.mod_lt H he0)
    calc L / 2 ^ b + H % 2 ^ b * 2 ^ (64 - b)
        ≤ 2 ^ (64 - b) - 1 + (2 ^ b - 1) * 2 ^ (64 - b) :=
          Nat.add_le_add h1 (mul_le_mul_right' h2 _)
      _ < 2 ^ b * 2 ^ (64 - b) := sub_one_add_sub_one_mul_lt _ _ he0 hf0
      _ = 2 ^ 64 := hef

/-- Helper: a packing step stays below the combined bit width. -/
lemma pack_step_lt (x v B k : ℕ) (hx : x < 2 ^ k) (hv : v < 2 ^ B) :
    x * 2 ^ B + v < 2 ^ (k + B) := by
  calc x * 2 ^ B + v < x * 2 ^ B + 2 ^ B := Nat.add_lt_add_left hv _
    _ = (x + 1) * 2 ^ B := by ring
    _ ≤ 2 ^ k * 2 ^ B := mul_le_mul_right' (Nat.succ_le_of_lt hx) _
    _ = 2 ^ (k + B) := by rw [← pow_add]

/-- Helper: monotonicity of powers of two. -/
lemma two_pow_le (a b : ℕ) (h : a ≤ b) : (2 : ℕ) ^ a ≤ 2 ^ b :=
  Nat.pow_le_pow_right (by norm_num) h

/-- Helper: an encode_value that returns a value had a defined
VALUE_MAX_INT, and the value is bounded by it (2^B - 1). -/
lemma encode_value_le (B : ℕ) (v lo hi : ℚ) (r : Bool) (x : ℕ)
    (h : encode_value B v lo hi r = some x) : x ≤ 2 ^ B - 1 := by
  by_cases hB : B < 32
  · simp only [encode_value, VALUE_MAX_INT, if_pos hB] at h
    by_cases hr : r = true
    · rw [if_pos hr] at h
      split_ifs at h with h1 h2
      injection h with h3
      exact h3 ▸ h2.2
    · rw [if_neg hr] at h
      split_ifs at h with h1 h2
      injection h with h3
      exact h3 ▸ h2.2
  · simp only [encode_value, VALUE_MAX_INT, if_neg hB] at h
    exact absurd h (by simp)

/-- Helper: a successfully encoded value is below 2^B. -/
lemma encode_value_lt (B : ℕ) (v lo hi : ℚ) (r : Bool) (x : ℕ)
    (h : encode_value B v lo hi r = some x) : x < 2 ^ B :=
  lt_of_le_of_lt (encode_value_le B v lo hi r x h)
    (Nat.sub_lt (Nat.pos_pow_of_pos B (by norm_num)) one_pos)

/-- Helper: the three shift-accumulate steps of encode pack the four
B-bit fields into the two-word register as the big-endian concatenation
N = ((ew * 2^B + es) * 2^B + ee) * 2^B + en. -/
lemma encode_pack (B ew es ee en : ℕ) (hB32 : B ≤ 32)
    (h1 : ew < 2 ^ B) (h2 : es < 2 ^ B) (h3 : ee < 2 ^ B) (h4 : en < 2 ^ B) :
    (shift_left (shift_left (shift_left 0 ew B).1 ((shift_left 0 ew B).2 + es) B).1
        ((shift_left (shift_left 0 ew B).1 ((shift_left 0 ew B).2 + es) B).2 + ee) B).1
      = (((ew * 2 ^ B + es) * 2 ^ B + ee) * 2 ^ B + en) / 2 ^ 64 ∧
    (shift_left (shift_left (shift_left 0 ew B).1 ((shift_left 0 ew B).2 + es) B).1
        ((shift_left (shift_left 0 ew B).1 ((shift_left 0 ew B).2 + es) B).2 + ee) B).2 + en
      = (((ew * 2 ^ B + es) * 2 ^ B + ee) * 2 ^ B + en) % 2 ^ 64 := by
  set q1 := shift_left 0 ew B with hq1
  set q2 := shift_left q1.1 (q1.2 + es) B with hq2
  set q3 := shift_left q2.1 (q2.2 + ee) B with hq3
  have hN2 : ew * 2 ^ B + es < 2 ^ (B + B) := pack_step_lt _ _ _ _ h1 h2
  have hN3 : (ew * 2 ^ B + es) * 2 ^ B + ee < 2 ^ (B + B + B) :=
    pack_step_lt _ _ _ _ hN2 h3
  have s1 := shift_left_step 0 ew ew es B (by omega) (by ring)
    (lt_of_lt_of_le h1 (two_pow_le B 64 (by omega)))
    (lt_of_lt_of_le h1 (two_pow_le B (128 - B) (by omega))) h2
  rw [← hq1] at s1
  have s2 := shift_left_step q1.1 (q1.2 + es) (ew * 2 ^ B + es) ee B
    (by omega) s1.1.symm s1.2
    (lt_of_lt_of_le hN2 (two_pow_le (B + B) (128 - B) (by omega))) h3
  rw [← hq2] at s2
  have s3 := shift_left_step q2.1 (q2.2 + ee) ((ew * 2 ^ B + es) * 2 ^ B + ee)
    en B (by omega) s2.1.symm s2.2
    (lt_of_lt_of_le hN3 (two_pow_le (B + B + B) (128 - B) (by omega))) h4
  rw [← hq3] at s3
  obtain ⟨d1, d2⟩ := div_mod_of_repr q3.1 (q3.2 + en) (2 ^ 64)
    (((ew * 2 ^ B + es) * 2 ^ B + ee) * 2 ^ B + en)
    (Nat.pos_pow_of_pos 64 (by norm_num)) s3.1.symm s3.2
  exact ⟨d1.symm, d2.symm⟩

/-- Helper: the encode asserts hold: the packed value split at bit 64
fits the declared low and high widths. -/
lemma encode_asserts (B N : ℕ) (hB0 : 0 < B) (hB32 : B ≤ 32)
    (hN : N < 2 ^ (B + B + B + B)) :
    N % 2 ^ 64 ≤ MAX_LO_BITS B ∧ N / 2 ^ 64 ≤ 2 ^ NUM_HI_BITS B - 1 := by
  have hBB : B + B + B + B = B * 4 := by omega
  rw [hBB] at hN
  by_cases hc : B * 4 ≤ 64
  · have hNlt : N < 2 ^ 64 := lt_of_lt_of_le hN (two_pow_le _ _ hc)
    constructor
    · rw [Nat.mod_eq_of_lt hNlt]
      unfold MAX_LO_BITS NUM_LO_BITS BITS_PER_ENVELOPE
      rw [min_eq_right hc]
      exact Nat.le_pred_of_lt hN
    · rw [Nat.div_eq_of_lt hNlt]
      exact Nat.zero_le _
  · constructor
    · unfold MAX_LO_BITS NUM_LO_BITS BITS_PER_ENVELOPE
      rw [min_eq_left (by omega)]
      exact Nat.le_pred_of_lt (Nat.mod_lt _ (Nat.pos_pow_of_pos _ (by norm_num)))
    · unfold NUM_HI_BITS BITS_PER_ENVELOPE
      have hdiv : N / 2 ^ 64 < 2 ^ (B * 4 - 64) := by
        apply Nat.div_lt_of_lt_mul
        calc N < 2 ^ (B * 4) := hN
          _ = 2 ^ 64 * 2 ^ (B * 4 - 64) := by rw [← pow_add]; congr 1; omega
      exact Nat.le_pred_of_lt hdiv

/-- Helper: below B = 32 the high-mask initialiser is defined. -/
lemma MAX_HI_BITS_eq (B : ℕ) (hB : B < 32) :
    MAX_HI_BITS B = some (2 ^ NUM_HI_BITS B - 1) := by
  unfold MAX_HI_BITS
  rw [if_pos (by unfold NUM_HI_BITS BITS_PER_ENVELOPE; omega)]

/-- Helper: reduction of encode when the constructor's high mask and all
four field encodings are defined. -/
lemma encode_some (B mhi ew es ee en : ℕ) (w s e n : ℚ)
    (hm : MAX_HI_BITS B = some mhi)
    (hw : encode_value B w (-180) 180 false = some ew)
    (hs : encode_value B s (-90) 90 false = some es)
    (he : encode_value B e (-180) 180 true = some ee)
    (hn : encode_value B n (-90) 90 true = some en) :
    encode B w s e n =
      if (shift_left (shift_left (shift_left 0 ew B).1
            ((shift_left 0 ew B).2 + es) B).1
          ((shift_left (shift_left 0 ew B).1
            ((shift_left 0 ew B).2 + es) B).2 + ee) B).2 + en
          ≤ MAX_LO_BITS B ∧
        (shift_left (shift_left (shift_left 0 ew B).1
            ((shift_left 0 ew B).2 + es) B).1
          ((shift_left (shift_left 0 ew B).1
            ((shift_left 0 ew B).2 + es) B).2 + ee) B).1 ≤ mhi then
        some (uintX_to_bytes_BE
            (shift_left (shift_left (shift_left 0 ew B).1
              ((shift_left 0 ew B).2 + es) B).1
            ((shift_left (shift_left 0 ew B).1
              ((shift_left 0 ew B).2 + es) B).2 + ee) B).1
            (NUM_HI_BITS B)
          ++ uintX_to_bytes_BE
            ((shift_left (shift_left (shift_left 0 ew B).1
              ((shift_left 0 ew B).2 + es) B).1
            ((shift_left (shift_left 0 ew B).1
              ((shift_left 0 ew B).2 + es) B).2 + ee) B).2 + en)
            (NUM_LO_BITS B))
      else none := by
  unfold encode
  rw [hm, hw, hs, he, hn]

/-- Helper: characterisation of a successful encode: the result is the
big-endian serialisation of the packed 4B-bit value, high half first. -/
lemma encode_eq (B : ℕ) (w s e n : ℚ) (ew es ee en : ℕ)
    (hB0 : 0 < B) (hB32 : B < 32)
    (hw : encode_value B w (-180) 180 false = some ew)
    (hs : encode_value B s (-90) 90 false = some es)
    (he : encode_value B e (-180) 180 true = some ee)
    (hn : encode_value B n (-90) 90 true = some en) :
    encode B w s e n = some
      (uintX_to_bytes_BE
          ((((ew * 2 ^ B + es) * 2 ^ B + ee) * 2 ^ B + en) / 2 ^ 64)
          (NUM_HI_BITS B)
        ++ uintX_to_bytes_BE
          ((((ew * 2 ^ B + es) * 2 ^ B + ee) * 2 ^ B + en) % 2 ^ 64)
          (NUM_LO_BITS B)) := by
  have hew := encode_value_lt _ _ _ _ _ _ hw
  have hes := encode_value_lt _ _ _ _ _ _ hs
  have hee := encode_value_lt _ _ _ _ _ _ he
  have hen := encode_value_lt _ _ _ _ _ _ hn
  obtain ⟨hhi, hlo⟩ := encode_pack B ew es ee en (Nat.le_of_lt hB32)
    hew hes hee hen
  have hN : (((ew * 2 ^ B + es) * 2 ^ B + ee) * 2 ^ B + en)
      < 2 ^ (B + B + B + B) :=
    pack_step_lt _ _ _ _ (pack_step_lt _ _ _ _ (pack_step_lt _ _ _ _ hew hes)
      hee) hen
  obtain ⟨ha1, ha2⟩ := encode_asserts B _ hB0 (Nat.le_of_lt hB32) hN
  rw [encode_some B _ ew es ee en w s e n (MAX_HI_BITS_eq B hB32)
      hw hs he hn,
    hhi, hlo, if_pos ⟨ha1, ha2⟩]

/-- Helper: the byte string produced by encode has 4 * B / 8 bytes. -/
lemma encode_length (B hi lo : ℕ) :
    (uintX_to_bytes_BE hi (NUM_HI_BITS B)
      ++ uintX_to_bytes_BE lo (NUM_LO_BITS B)).length = 4 * B / 8 := by
  rw [List.length_append, length_uintX_to_bytes, length_uintX_to_bytes]
  unfold NUM_HI_BITS NUM_LO_BITS BITS_PER_ENVELOPE
  rcases le_or_lt (B * 4) 64 with hc | hc
  · rw [min_eq_right hc]
    omega
  · rw [min_eq_left (by omega)]
    omega

/-- Helper: the value a stored field decodes to (for a defined
VALUE_MAX_INT, whose value is 2^B - 1). -/
def dec_val (B x : ℕ) (mn mx : ℚ) : ℚ :=
  (x : ℚ) / ((2 ^ B - 1 : ℕ) : ℚ) * (mx - mn) + mn

/-- Helper: decode_value on an in-range field below B = 32. -/
lemma decode_value_eq (B x : ℕ) (mn mx : ℚ) (hB : B < 32)
    (hx : x ≤ 2 ^ B - 1) :
    decode_value B x mn mx = some (dec_val B x mn mx) := by
  simp only [decode_value, VALUE_MAX_INT, if_pos hB]
  rw [if_pos hx]
  rfl

/-- Helper: shift_right acting on the two-word split of C produces the
two-word split of C / 2^b. -/
lemma shift_right_div_mod (C b : ℕ) (hb : b ≤ 64) :
    (shift_right (C / 2 ^ 64) (C % 2 ^ 64) b).1 = C / 2 ^ b / 2 ^ 64 ∧
    (shift_right (C / 2 ^ 64) (C % 2 ^ 64) b).2 = C / 2 ^ b % 2 ^ 64 := by
  have hpos : (0 : ℕ) < 2 ^ 64 := Nat.pos_pow_of_pos 64 (by norm_num)
  have s := shift_right_step (C / 2 ^ 64) (C % 2 ^ 64) b hb (Nat.mod_lt _ hpos)
  rw [Nat.div_add_mod'] at s
  obtain ⟨d1, d2⟩ := div_mod_of_repr _ _ (2 ^ 64) (C / 2 ^ b) hpos
    s.1.symm s.2
  exact ⟨d1.symm, d2.symm⟩

/-- Helper: reduction of decode when the constructor's high mask is
defined. -/
lemma decode_some (B mhi : ℕ) (input : List ℕ)
    (hm : MAX_HI_BITS B = some mhi) :
    decode B input =
      (let hi := bytes_to_uintX_BE (NUM_HI_BITS B)
        (input.take (NUM_HI_BYTES B))
       let lo := bytes_to_uintX_BE (NUM_LO_BITS B)
        (input.drop (NUM_HI_BYTES B))
       if lo ≤ MAX_LO_BITS B ∧ hi ≤ mhi then
        match decode_value B (lo % 2 ^ B) (-90) 90 with
        | none => none
        | some vn =>
          let q1 := shift_right hi lo B
          match decode_value B (q1.2 % 2 ^ B) (-180) 180 with
          | none => none
          | some ve =>
            let q2 := shift_right q1.1 q1.2 B
            match decode_value B (q2.2 % 2 ^ B) (-90) 90 with
            | none => none
            | some vs =>
              let q3 := shift_right q2.1 q2.2 B
              match decode_value B (q3.2 % 2 ^ B) (-180) 180 with
              | none => none
              | some vw => some (vw, vs, ve, vn)
       else none) := by
  unfold decode
  rw [hm]

/-- Helper: decode applied to the byte string encode produces recovers
the four packed fields and decodes each one (n, e, s, w order inside,
assembled as (w, s, e, n)). -/
lemma decode_eq (B ew es ee en : ℕ) (hB0 : 0 < B) (hBe : B % 2 = 0)
    (hB32 : B < 32)
    (h1 : ew < 2 ^ B) (h2 : es < 2 ^ B) (h3 : ee < 2 ^ B) (h4 : en < 2 ^ B) :
    decode B (uintX_to_bytes_BE
        ((((ew * 2 ^ B + es) * 2 ^ B + ee) * 2 ^ B + en) / 2 ^ 64)
        (NUM_HI_BITS B)
      ++ uintX_to_bytes_BE
        ((((ew * 2 ^ B + es) * 2 ^ B + ee) * 2 ^ B + en) % 2 ^ 64)
        (NUM_LO_BITS B))
      = some (dec_val B ew (-180) 180, dec_val B es (-90) 90,
          dec_val B ee (-180) 180, dec_val B en (-90) 90) := by
  have hpos64 : (0 : ℕ) < 2 ^ 64 := Nat.pos_pow_of_pos 64 (by norm_num)
  have heB : (0 : ℕ) < 2 ^ B := Nat.pos_pow_of_pos B (by norm_num)
  set N := ((ew * 2 ^ B + es) * 2 ^ B + ee) * 2 ^ B + en with hNdef
  have hN4 : N < 2 ^ (B + B + B + B) := by
    rw [hNdef]
    exact pack_step_lt _ _ _ _ (pack_step_lt _ _ _ _
      (pack_step_lt _ _ _ _ h1 h2) h3) h4
  obtain ⟨ha1, ha2⟩ := encode_asserts B N hB0 (Nat.le_of_lt hB32) hN4
  set L1 := uintX_to_bytes_BE (N / 2 ^ 64) (NUM_HI_BITS B) with hL1
  set L2 := uintX_to_bytes_BE (N % 2 ^ 64) (NUM_LO_BITS B) with hL2
  have hlen1 : L1.length = NUM_HI_BYTES B := by
    rw [hL1, length_uintX_to_bytes]; rfl
  have htake : (L1 ++ L2).take (NUM_HI_BYTES B) = L1 := by
    rw [← hlen1]; exact List.take_left _ _
  have hdrop : (L1 ++ L2).drop (NUM_HI_BYTES B) = L2 := by
    rw [← hlen1]; exact List.drop_left _ _
  have hbits1 : NUM_HI_BITS B = 8 * NUM_HI_BYTES B := by
    unfold NUM_HI_BYTES NUM_HI_BITS BITS_PER_ENVELOPE
    omega
  have hbits2 : NUM_LO_BITS B = 8 * NUM_LO_BYTES B := by
    unfold NUM_LO_BYTES NUM_LO_BITS BITS_PER_ENVELOPE
    rw [Nat.min_def]
    split <;> omega
  have hhiV : bytes_to_uintX_BE (NUM_HI_BITS B) L1 = N / 2 ^ 64 := by
    rw [hL1, hbits1]
    refine bytes_roundtrip _ _ ?_
    rw [← hbits1]
    calc N / 2 ^ 64 ≤ 2 ^ NUM_HI_BITS B - 1 := ha2
      _ < 2 ^ NUM_HI_BITS B :=
          Nat.sub_lt (Nat.pos_pow_of_pos _ (by norm_num)) one_pos
  have hloV : bytes_to_uintX_BE (NUM_LO_BITS B) L2 = N % 2 ^ 64 := by
    rw [hL2, hbits2]
    refine bytes_roundtrip _ _ ?_
    rw [← hbits2]
    calc N % 2 ^ 64 ≤ MAX_LO_BITS B := ha1
      _ < 2 ^ NUM_LO_BITS B :=
          Nat.sub_lt (Nat.pos_pow_of_pos _ (by norm_num)) one_pos
  have hM1 : N / 2 ^ B = (ew * 2 ^ B + es) * 2 ^ B + ee := by
    rw [hNdef, show ((ew * 2 ^ B + es) * 2 ^ B + ee) * 2 ^ B + en
        = 2 ^ B * ((ew * 2 ^ B + es) * 2 ^ B + ee) + en by ring,
      Nat.mul_add_div heB, Nat.div_eq_of_lt h4, add_zero]
  have hM2 : N / 2 ^ B / 2 ^ B = ew * 2 ^ B + es := by
    rw [hM1, show (ew * 2 ^ B + es) * 2 ^ B + ee
        = 2 ^ B * (ew * 2 ^ B + es) + ee by ring,
      Nat.mul_add_div heB, Nat.div_eq_of_lt h3, add_zero]
  have hM3 : N / 2 ^ B / 2 ^ B / 2 ^ B = ew := by
    rw [hM2, show ew * 2 ^ B + es = 2 ^ B * ew + es by ring,
      Nat.mul_add_div heB, Nat.div_eq_of_lt h2, add_zero]
  have hfn : N % 2 ^ B = en := by
    rw [hNdef, show ((ew * 2 ^ B + es) * 2 ^ B + ee) * 2 ^ B + en
        = 2 ^ B * ((ew * 2 ^ B + es) * 2 ^ B + ee) + en by ring,
      Nat.mul_add_mod, Nat.mod_eq_of_lt h4]
  have hfe : N / 2 ^ B % 2 ^ B = ee := by
    rw [hM1, show (ew * 2 ^ B + es) * 2 ^ B + ee
        = 2 ^ B * (ew * 2 ^ B + es) + ee by ring,
      Nat.mul_add_mod, Nat.mod_eq_of_lt h3]
  have hfs : N / 2 ^ B / 2 ^ B % 2 ^ B = es := by
    rw [hM2, show ew * 2 ^ B + es = 2 ^ B * ew + es by ring,
      Nat.mul_add_mod, Nat.mod_eq_of_lt h2]
  have hfw : N / 2 ^ B / 2 ^ B / 2 ^ B % 2 ^ B = ew := by
    rw [hM3, Nat.mod_eq_of_lt h1]
  have hmm64 : ∀ C : ℕ, C % 2 ^ 64 % 2 ^ B = C % 2 ^ B := fun C =>
    Nat.mod_mod_of_dvd C (pow_dvd_pow 2 (by omega))
  have r1 := shift_right_div_mod N B (by omega)
  have r2 := shift_right_div_mod (N / 2 ^ B) B (by omega)
  have r3 := shift_right_div_mod (N / 2 ^ B / 2 ^ B) B (by omega)
  have hdn := decode_value_eq B en (-90) 90 hB32 (Nat.le_pred_of_lt h4)
  have hde := decode_value_eq B ee (-180) 180 hB32 (Nat.le_pred_of_lt h3)
  have hds := decode_value_eq B es (-90) 90 hB32 (Nat.le_pred_of_lt h2)
  have hdw := decode_value_eq B ew (-180) 180 hB32 (Nat.le_pred_of_lt h1)
  rw [decode_some B _ _ (MAX_HI_BITS_eq B hB32)]
  simp only [htake, hdrop, hhiV, hloV]
  rw [if_pos ⟨ha1, ha2⟩]
  simp only [hmm64, hfn, hdn, r1.1, r1.2, hfe, hde, r2.1, r2.2, hfs, hds,
    r3.1, r3.2, hfw, hdw]

/-- Helper: the defined VALUE_MAX_INT value 2^B - 1 is positive (as a
rational) when B > 0. -/
lemma value_max_pos (B : ℕ) (hB0 : 0 < B) :
    (0 : ℚ) < ((2 ^ B - 1 : ℕ) : ℚ) := by
  have h2 : (2 : ℕ) ≤ 2 ^ B := by
    calc (2 : ℕ) = 2 ^ 1 := (pow_one 2).symm
      _ ≤ 2 ^ B := two_pow_le 1 B hB0
  have hVM : 0 < 2 ^ B - 1 := Nat.sub_pos_of_lt (lt_of_lt_of_le one_lt_two h2)
  exact_mod_cast hVM

/-- Helper: encode_value with floor rounding succeeds on an in-range
value, and the field it stores decodes to at most the value, within one
quantum (mx - mn) / (2^B - 1), when B is below 32. -/
lemma encode_value_floor_spec (B : ℕ) (hB0 : 0 < B) (hB32 : B < 32)
    (v mn mx : ℚ)
    (h1 : mn ≤ v) (h2 : v ≤ mx) (hlt : mn < mx) :
    ∃ x, encode_value B v mn mx false = some x ∧ x ≤ 2 ^ B - 1 ∧
      dec_val B x mn mx ≤ v ∧
      v - dec_val B x mn mx ≤ (mx - mn) / ((2 ^ B - 1 : ℕ) : ℚ) := by
  have hM0 : (0 : ℚ) < ((2 ^ B - 1 : ℕ) : ℚ) := value_max_pos B hB0
  have hr0 : (0 : ℚ) < mx - mn := by linarith
  set t := (v - mn) / (mx - mn) * ((2 ^ B - 1 : ℕ) : ℚ) with ht
  have ht0 : 0 ≤ t := by
    rw [ht]
    exact mul_nonneg (div_nonneg (by linarith) (by linarith)) (by linarith)
  have htM : t ≤ ((2 ^ B - 1 : ℕ) : ℚ) := by
    rw [ht]
    calc (v - mn) / (mx - mn) * ((2 ^ B - 1 : ℕ) : ℚ)
        ≤ 1 * ((2 ^ B - 1 : ℕ) : ℚ) := by
          apply mul_le_mul_of_nonneg_right _ (le_of_lt hM0)
          exact (div_le_one hr0).mpr (by linarith)
      _ = _ := one_mul _
  have hfl0 : 0 ≤ ⌊t⌋ := Int.floor_nonneg.mpr ht0
  have hflM : ⌊t⌋ ≤ ((2 ^ B - 1 : ℕ) : ℤ) := by
    calc ⌊t⌋ ≤ ⌊((2 ^ B - 1 : ℕ) : ℚ)⌋ := Int.floor_le_floor htM
      _ = ((2 ^ B - 1 : ℕ) : ℤ) := Int.floor_natCast _
  have hxle : ⌊t⌋.toNat ≤ 2 ^ B - 1 := by omega
  have hxq : ((⌊t⌋.toNat : ℕ) : ℚ) = ((⌊t⌋ : ℤ) : ℚ) := by
    exact_mod_cast congrArg (fun z : ℤ => (z : ℚ)) (Int.toNat_of_nonneg hfl0)
  have hid : t / ((2 ^ B - 1 : ℕ) : ℚ) * (mx - mn) + mn = v := by
    rw [ht, mul_div_cancel_right₀ _ (ne_of_gt hM0),
      div_mul_cancel₀ _ (ne_of_gt hr0)]
    ring
  refine ⟨⌊t⌋.toNat, ?_, hxle, ?_, ?_⟩
  · simp only [encode_value, VALUE_MAX_INT, if_pos hB32]
    rw [← ht, if_pos ⟨h1, h2⟩, if_neg Bool.false_ne_true,
      if_pos ⟨hfl0, hxle⟩]
  · unfold dec_val
    rw [hxq]
    calc ((⌊t⌋ : ℤ) : ℚ) / ((2 ^ B - 1 : ℕ) : ℚ) * (mx - mn) + mn
        ≤ t / ((2 ^ B - 1 : ℕ) : ℚ) * (mx - mn) + mn := by
          have hfle : ((⌊t⌋ : ℤ) : ℚ) ≤ t := Int.floor_le t
          gcongr
      _ = v := hid
  · have hsub : t - ((⌊t⌋ : ℤ) : ℚ) ≤ 1 := by
      have := Int.sub_one_lt_floor t
      linarith
    have hdiff : v - dec_val B ⌊t⌋.toNat mn mx
        = (t - ((⌊t⌋ : ℤ) : ℚ)) / ((2 ^ B - 1 : ℕ) : ℚ) * (mx - mn) := by
      unfold dec_val
      rw [hxq, ← hid]
      ring
    rw [hdiff]
    calc (t - ((⌊t⌋ : ℤ) : ℚ)) / ((2 ^ B - 1 : ℕ) : ℚ) * (mx - mn)
        ≤ 1 / ((2 ^ B - 1 : ℕ) : ℚ) * (mx - mn) := by gcongr
      _ = (mx - mn) / ((2 ^ B - 1 : ℕ) : ℚ) := by ring

/-- Helper: encode_value with ceiling rounding succeeds on an in-range
value, and the field it stores decodes to at least the value, within one
quantum (mx - mn) / (2^B - 1), when B is below 32. -/
lemma encode_value_ceil_spec (B : ℕ) (hB0 : 0 < B) (hB32 : B < 32)
    (v mn mx : ℚ)
    (h1 : mn ≤ v) (h2 : v ≤ mx) (hlt : mn < mx) :
    ∃ x, encode_value B v mn mx true = some x ∧ x ≤ 2 ^ B - 1 ∧
      v ≤ dec_val B x mn mx ∧
      dec_val B x mn mx - v ≤ (mx - mn) / ((2 ^ B - 1 : ℕ) : ℚ) := by
  have hM0 : (0 : ℚ) < ((2 ^ B - 1 : ℕ) : ℚ) := value_max_pos B hB0
  have hr0 : (0 : ℚ) < mx - mn := by linarith
  set t := (v - mn) / (mx - mn) * ((2 ^ B - 1 : ℕ) : ℚ) with ht
  have ht0 : 0 ≤ t := by
    rw [ht]
    exact mul_nonneg (div_nonneg (by linarith) (by linarith)) (by linarith)
  have htM : t ≤ ((2 ^ B - 1 : ℕ) : ℚ) := by
    rw [ht]
    calc (v - mn) / (mx - mn) * ((2 ^ B - 1 : ℕ) : ℚ)
        ≤ 1 * ((2 ^ B - 1 : ℕ) : ℚ) := by
          apply mul_le_mul_of_nonneg_right _ (le_of_lt hM0)
          exact (div_le_one hr0).mpr (by linarith)
      _ = _ := one_mul _
  have hcl0 : 0 ≤ ⌈t⌉ := Int.ceil_nonneg ht0
  have hclM : ⌈t⌉ ≤ ((2 ^ B - 1 : ℕ) : ℤ) := Int.ceil_le.mpr (by
    exact_mod_cast htM)
  have hxle : ⌈t⌉.toNat ≤ 2 ^ B - 1 := by omega
  have hxq : ((⌈t⌉.toNat : ℕ) : ℚ) = ((⌈t⌉ : ℤ) : ℚ) := by
    exact_mod_cast congrArg (fun z : ℤ => (z : ℚ)) (Int.toNat_of_nonneg hcl0)
  have hid : t / ((2 ^ B - 1 : ℕ) : ℚ) * (mx - mn) + mn = v := by
    rw [ht, mul_div_cancel_right₀ _ (ne_of_gt hM0),
      div_mul_cancel₀ _ (ne_of_gt hr0)]
    ring
  refine ⟨⌈t⌉.toNat, ?_, hxle, ?_, ?_⟩
  · simp only [encode_value, VALUE_MAX_INT, if_pos hB32, if_true]
    rw [← ht, if_pos ⟨h1, h2⟩, if_pos ⟨hcl0, hxle⟩]
  · unfold dec_val
    rw [hxq]
    calc v = t / ((2 ^ B - 1 : ℕ) : ℚ) * (mx - mn) + mn := hid.symm
      _ ≤ ((⌈t⌉ : ℤ) : ℚ) / ((2 ^ B - 1 : ℕ) : ℚ) * (mx - mn) + mn := by
          have hcle : t ≤ ((⌈t⌉ : ℤ) : ℚ) := Int.le_ceil t
          gcongr
  · have hsub : ((⌈t⌉ : ℤ) : ℚ) - t ≤ 1 := by
      have := Int.ceil_lt_add_one t
      linarith
    have hdiff : dec_val B ⌈t⌉.toNat mn mx - v
        = (((⌈t⌉ : ℤ) : ℚ) - t) / ((2 ^ B - 1 : ℕ) : ℚ) * (mx - mn) := by
      unfold dec_val
      rw [hxq, ← hid]
      ring
    rw [hdiff]
    calc (((⌈t⌉ : ℤ) : ℚ) - t) / ((2 ^ B - 1 : ℕ) : ℚ) * (mx - mn)
        ≤ 1 / ((2 ^ B - 1 : ℕ) : ℚ) * (mx - mn) := by gcongr
      _ = (mx - mn) / ((2 ^ B - 1 : ℕ) : ℚ) := by ring

/-- C2 (corrected): for every envelope (w, s, e, n) in the legal ranges
and every even bits-per-value B with 0 < B ≤ 30, encode succeeds and
produces exactly 4B/8 bytes, and decoding the encoding yields a superset
box (dw at most w, ds at most s, de at least e, dn at least n) with
per-coordinate error at most (hi - lo) / (2^B - 1) for that coordinate's
range. The claim's B = 32 is excluded: there the constructor's full-width
shifts (1 << 32 on int, 1ull << 64) are undefined, so the codec has no
defined result (see the counterexample). -/
theorem envelope_codec_C2 (B : ℕ) (w s e n : ℚ)
    (hB0 : 0 < B) (hBe : B % 2 = 0) (hB30 : B ≤ 30)
    (hw1 : -180 ≤ w) (hw2 : w ≤ 180) (hs1 : -90 ≤ s) (hs2 : s ≤ 90)
    (he1 : -180 ≤ e) (he2 : e ≤ 180) (hn1 : -90 ≤ n) (hn2 : n ≤ 90) :
    ∃ bytes dw ds de dn,
      encode B w s e n = some bytes ∧
      bytes.length = 4 * B / 8 ∧
      decode B bytes = some (dw, ds, de, dn) ∧
      dw ≤ w ∧ ds ≤ s ∧ e ≤ de ∧ n ≤ dn ∧
      w - dw ≤ 360 / ((2 : ℚ) ^ B - 1) ∧
      s - ds ≤ 180 / ((2 : ℚ) ^ B - 1) ∧
      de - e ≤ 360 / ((2 : ℚ) ^ B - 1) ∧
      dn - n ≤ 180 / ((2 : ℚ) ^ B - 1) := by
  have hB32 : B < 32 := by omega
  obtain ⟨ew, hw, hwle, hwd1, hwd2⟩ :=
    encode_value_floor_spec B hB0 hB32 w (-180) 180 hw1 hw2 (by norm_num)
  obtain ⟨es, hs, hsle, hsd1, hsd2⟩ :=
    encode_value_floor_spec B hB0 hB32 s (-90) 90 hs1 hs2 (by norm_num)
  obtain ⟨ee, hev, hele, hed1, hed2⟩ :=
    encode_value_ceil_spec B hB0 hB32 e (-180) 180 he1 he2 (by norm_num)
  obtain ⟨en, hnv, hnle, hnd1, hnd2⟩ :=
    encode_value_ceil_spec B hB0 hB32 n (-90) 90 hn1 hn2 (by norm_num)
  have hVMlt : 2 ^ B - 1 < 2 ^ B :=
    Nat.sub_lt (Nat.pos_pow_of_pos B (by norm_num)) one_pos
  have hcast : ((2 ^ B - 1 : ℕ) : ℚ) = (2 : ℚ) ^ B - 1 := by
    have h2 : (1 : ℕ) ≤ 2 ^ B := Nat.pos_pow_of_pos B (by norm_num)
    push_cast [h2]
    ring
  have henc := encode_eq B w s e n ew es ee en hB0 hB32 hw hs hev hnv
  have hdec := decode_eq B ew es ee en hB0 hBe hB32
    (lt_of_le_of_lt hwle hVMlt) (lt_of_le_of_lt hsle hVMlt)
    (lt_of_le_of_lt hele hVMlt) (lt_of_le_of_lt hnle hVMlt)
  have hw360 : w - dec_val B ew (-180) 180 ≤ 360 / ((2 : ℚ) ^ B - 1) := by
    have hx := hwd2
    rw [hcast] at hx
    norm_num at hx
    linarith
  have hs180 : s - dec_val B es (-90) 90 ≤ 180 / ((2 : ℚ) ^ B - 1) := by
    have hx := hsd2
    rw [hcast] at hx
    norm_num at hx
    linarith
  have he360 : dec_val B ee (-180) 180 - e ≤ 360 / ((2 : ℚ) ^ B - 1) := by
    have hx := hed2
    rw [hcast] at hx
    norm_num at hx
    linarith
  have hn180 : dec_val B en (-90) 90 - n ≤ 180 / ((2 : ℚ) ^ B - 1) := by
    have hx := hnd2
    rw [hcast] at hx
    norm_num at hx
    linarith
  exact ⟨_, _, _, _, _, henc, encode_length B _ _, hdec, hwd1, hsd1, hed1,
    hnd1, hw360, hs180, he360, hn180⟩

/-- C2 witness: the codec round-trip theorem applied at B = 20 and the
box (0, 0, 1, 1). -/
theorem envelope_codec_C2_witness :
    ∃ bytes dw ds de dn,
      encode 20 0 0 1 1 = some bytes ∧
      bytes.length = 4 * 20 / 8 ∧
      decode 20 bytes = some (dw, ds, de, dn) ∧
      dw ≤ 0 ∧ ds ≤ 0 ∧ (1 : ℚ) ≤ de ∧ (1 : ℚ) ≤ dn ∧
      (0 : ℚ) - dw ≤ 360 / ((2 : ℚ) ^ 20 - 1) ∧
      (0 : ℚ) - ds ≤ 180 / ((2 : ℚ) ^ 20 - 1) ∧
      de - 1 ≤ 360 / ((2 : ℚ) ^ 20 - 1) ∧
      dn - 1 ≤ 180 / ((2 : ℚ) ^ 20 - 1) :=
  envelope_codec_C2 20 0 0 1 1 (by norm_num) (by norm_num) (by norm_num)
    (by norm_num) (by norm_num) (by norm_num) (by norm_num) (by norm_num)
    (by norm_num) (by norm_num) (by norm_num)

/-- C2 counterexample: B = 32 satisfies the claim's legality conditions
(even, positive, at most 32) and (0, 0, 1, 1) is a legal envelope, yet
both encode and decode have no defined result at B = 32: the
constructor's initialisers (1 << 32) - 1 on a 32-bit int and
(1ull << 64) - 1 are full-width shifts, which C++ leaves undefined, so
the claimed round-trip does not hold there. -/
theorem envelope_codec_C2_cex :
    (32 % 2 = 0 ∧ 0 < 32 ∧ 32 ≤ 32 ∧
      (-180 : ℚ) ≤ 0 ∧ (0 : ℚ) ≤ 180 ∧ (-90 : ℚ) ≤ 0 ∧ (0 : ℚ) ≤ 90 ∧
      (-180 : ℚ) ≤ 1 ∧ (1 : ℚ) ≤ 180 ∧ (-90 : ℚ) ≤ 1 ∧ (1 : ℚ) ≤ 90) ∧
    encode 32 0 0 1 1 = none ∧
    decode 32 (List.replicate 16 0) = none := by
  refine ⟨by norm_num, ?_, ?_⟩
  · rfl
  · rfl

/-!
Filter extension callbacks (spatial_filter.cpp lines 154-424). The sqlite
statement is an oracle (bind outcome and step outcome); stderr output is
collected in message lists; process aborts are none. The started_at
timing field and progress tracing are wall-clock effects with no bearing
on results and are not modelled.
-/

inductive StepResult where
  | done
  | row (envelope : List ℕ)
  | err

structure DbOracle where
  bind_ok : Bool
  step : StepResult

inductive MatchResult where
  | MR_MATCH
  | MR_NOT_MATCHED
  | MR_ERROR

/-- Shallow embedding of struct filter_context (spatial_filter.cpp lines
160-168): counters, nullable db handle, query rectangle, lazily
constructed encoder (held as its bits-per-value). -/
structure FilterContext where
  count : ℤ
  match_count : ℤ
  db : Option Unit
  w : ℚ
  s : ℚ
  e : ℚ
  n : ℚ
  encoder : Option ℕ

def FEATURE_PATH_SNO : List Char := "/.sno-dataset/feature/".data

def FEATURE_PATH_TABLE : List Char := "/.table-dataset/feature/".data

/-- Shallow embedding of sf_filter_blob (spatial_filter.cpp lines
212-260). path.find(sub) == npos is the absence of sub as an infix of
path. On a row, the encoder is constructed lazily at num_bytes * 8 / 4
bits per value (the EnvelopeEncoder constructor substitutes the default
20 when its argument is 0); a decode assert failure aborts (none); the
final test is cyclic overlap of longitudes and linear overlap of
latitudes with the short-circuiting C && operator. -/
def sf_filter_blob (ctx : FilterContext) (oracle : DbOracle)
    (path : List Char) : Option (MatchResult × FilterContext) :=
  if ¬ FEATURE_PATH_SNO <:+: path ∧ ¬ FEATURE_PATH_TABLE <:+: path then
    some (.MR_MATCH, ctx)
  else if oracle.bind_ok = false then some (.MR_ERROR, ctx)
  else
    match oracle.step with
    | .done => some (.MR_MATCH, ctx)
    | .err => some (.MR_ERROR, ctx)
    | .row envelope =>
      let ctor_arg := envelope.length * 8 / 4
      let bits := ctx.encoder.getD (if ctor_arg = 0 then 20 else ctor_arg)
      let ctx1 := { ctx with encoder := some bits }
      match decode bits envelope with
      | none => none
      | some (dw, ds, de, dn) =>
        Option.bind (cyclic_range_overlaps dw de ctx1.w ctx1.e) (fun c1 =>
          if c1 then
            Option.bind (range_overlaps ds dn ctx1.s ctx1.n) (fun c2 =>
              some (if c2 then (.MR_MATCH, ctx1)
                else (.MR_NOT_MATCHED, ctx1)))
          else some (.MR_NOT_MATCHED, ctx1))

def OBJ_COMMIT : ℤ := 1

def OBJ_TREE : ℤ := 2

def OBJ_BLOB : ℤ := 3

def OBJ_TAG : ℤ := 4

inductive Situation where
  | LOFS_COMMIT
  | LOFS_TAG
  | LOFS_BEGIN_TREE
  | LOFS_END_TREE
  | LOFS_BLOB

def LOFR_ZERO : ℕ := 0

def LOFR_MARK_SEEN : ℕ := 1

def LOFR_DO_SHOW : ℕ := 2

/-- LOFR_MARK_SEEN | LOFR_DO_SHOW: bitwise or of the two disjoint flag
bits is their sum. -/
def LOFR_MARK_SEEN_AND_DO_SHOW : ℕ := LOFR_MARK_SEEN + LOFR_DO_SHOW

/-- Shallow embedding of sf_filter_object (spatial_filter.cpp lines
327-391), returning (flags, omit-set, context). The type asserts and the
abort() on MR_ERROR are none; obj_type stands for sf_obj2type(obj). -/
def sf_filter_object (ctx : FilterContext) (situation : Situation)
    (obj_type : ℤ) (oracle : DbOracle) (path : List Char) :
    Option (ℕ × Bool × FilterContext) :=
  let ctx := { ctx with count := ctx.count + 1 }
  match situation with
  | .LOFS_COMMIT =>
    if obj_type = OBJ_COMMIT then some (LOFR_MARK_SEEN_AND_DO_SHOW, false, ctx)
    else none
  | .LOFS_TAG =>
    if obj_type = OBJ_TAG then some (LOFR_MARK_SEEN_AND_DO_SHOW, false, ctx)
    else none
  | .LOFS_BEGIN_TREE =>
    if obj_type = OBJ_TREE then some (LOFR_MARK_SEEN_AND_DO_SHOW, false, ctx)
    else none
  | .LOFS_END_TREE =>
    if obj_type = OBJ_TREE then some (LOFR_ZERO, false, ctx) else none
  | .LOFS_BLOB =>
    if obj_type ≠ OBJ_BLOB then none
    else if ctx.db = none then some (LOFR_MARK_SEEN_AND_DO_SHOW, false, ctx)
    else
      match sf_filter_blob ctx oracle path with
      | none => none
      | some (.MR_ERROR, _) => none
      | some (.MR_NOT_MATCHED, ctx1) => some (LOFR_MARK_SEEN, true, ctx1)
      | some (.MR_MATCH, ctx1) =>
        some (LOFR_MARK_SEEN_AND_DO_SHOW, false,
          { ctx1 with match_count := ctx1.match_count + 1 })

structure SfInitResult where
  ret : ℤ
  ctx : Option FilterContext
  messages : List String

/-- Shallow embedding of sf_init (spatial_filter.cpp lines 266-325). The
stringstream parse of filter_arg is abstracted to rect, the list of
comma-separated values already read; open_ok models sqlite3_open_v2
succeeding and prepare_ok models sqlite3_prepare_v3 succeeding; stderr
diagnostics are collected in messages. -/
def sf_init (rect : List ℚ) (open_ok : Bool) (prepare_ok : Bool) :
    SfInitResult :=
  if rect.length ≠ 4 then
    ⟨2, none,
      ["spatial-filter: Error: invalid bounds, expected lng_w,lat_s,lng_e,lat_n"]⟩
  else
    let ctx : FilterContext :=
      { count := 0, match_count := 0, db := none,
        w := rect.headD 0, s := (rect.drop 1).headD 0,
        e := (rect.drop 2).headD 0, n := (rect.drop 3).headD 0,
        encoder := none }
    if open_ok = false then
      ⟨0, some ctx,
        ["spatial-filter: Warning: not available for this repository - no objects will be omitted."]⟩
    else if prepare_ok = false then
      ⟨1, some { ctx with db := some () },
        ["spatial-filter: Error: preparing lookup"]⟩
    else ⟨0, some { ctx with db := some () }, []⟩

/-- C4: when opening the sidecar index database fails, sf_init emits one
warning line and returns success (0) with a null db handle; and for any
context whose db handle is null, the blob callback returns mark-seen
plus show without omitting, whatever the oracle and path. -/
theorem filter_match_all_C4 :
    (∀ (rect : List ℚ) (prepare_ok : Bool), rect.length = 4 →
      (sf_init rect false prepare_ok).ret = 0 ∧
      (∃ ctx, (sf_init rect false prepare_ok).ctx = some ctx ∧
        ctx.db = none) ∧
      (sf_init rect false prepare_ok).messages.length = 1) ∧
    (∀ (ctx : FilterContext) (oracle : DbOracle) (path : List Char),
      ctx.db = none →
      sf_filter_object ctx .LOFS_BLOB OBJ_BLOB oracle path =
        some (LOFR_MARK_SEEN_AND_DO_SHOW, false,
          { ctx with count := ctx.count + 1 })) := by
  constructor
  · intro rect prepare_ok hlen
    simp only [sf_init, hlen]
    norm_num
  · intro ctx oracle path hdb
    simp only [sf_filter_object]
    rw [if_neg (by simp [OBJ_BLOB]), if_pos (by simpa using hdb)]

/-- C4 witness: sf_init with a failing open at a concrete rectangle, and
the blob callback at a concrete null-db context. -/
theorem filter_match_all_C4_witness :
    (sf_init [1, 2, 3, 4] false true).ret = 0 ∧
    sf_filter_object ⟨0, 0, none, 1, 2, 3, 4, none⟩ .LOFS_BLOB OBJ_BLOB
        ⟨true, .done⟩ "a".data =
      some (LOFR_MARK_SEEN_AND_DO_SHOW, false,
        ⟨0 + 1, 0, none, 1, 2, 3, 4, none⟩) := by
  constructor
  · exact (filter_match_all_C4.1 [1, 2, 3, 4] true (by rfl)).1
  · exact filter_match_all_C4.2 ⟨0, 0, none, 1, 2, 3, 4, none⟩
      ⟨true, .done⟩ "a".data rfl

/-- C5: for every path containing neither feature-directory substring,
sf_filter_blob returns MATCH with the context unchanged, for every
database oracle: the lookup statement is never bound or stepped. -/
theorem filter_non_feature_bypass_C5 :
    ∀ (ctx : FilterContext) (oracle : DbOracle) (path : List Char),
      ¬ FEATURE_PATH_SNO <:+: path → ¬ FEATURE_PATH_TABLE <:+: path →
      sf_filter_blob ctx oracle path = some (.MR_MATCH, ctx) := by
  intro ctx oracle path h1 h2
  unfold sf_filter_blob
  rw [if_pos ⟨h1, h2⟩]

/-- C5 witness: the bypass applied at a concrete non-feature path and a
concrete context and oracle. -/
theorem filter_non_feature_bypass_C5_witness :
    sf_filter_blob ⟨0, 0, some (), 1, 2, 3, 4, none⟩ ⟨false, .err⟩
        "refs/heads/main".data =
      some (.MR_MATCH, ⟨0, 0, some (), 1, 2, 3, 4, none⟩) :=
  filter_non_feature_bypass_C5 ⟨0, 0, some (), 1, 2, 3, 4, none⟩
    ⟨false, .err⟩ "refs/heads/main".data (by decide) (by decide)

/-!
The cli helper shim (src/cli_helper/kart.c). Process-level effects
(semctl, execvp, fork, connect, nanosleep) are modelled as oracles and
result records.
-/

/-- Shallow embedding of exit_on_sigalrm (kart.c lines 197-210). semval
is what semctl(semid, 0, GETVAL) returned, negative meaning failure; the
result is the exit code paired with whether the semaphore was destroyed
(IPC_RMID). -/
def exit_on_sigalrm (semval : ℤ) : ℤ × Bool :=
  if semval < 0 then (5, false)
  else (semval - 1000, true)

/-- C6: on SIGALRM the shim reads the semaphore value, destroys the
semaphore and exits with semval - 1000, so a driver storing 1000 + k
makes it exit with code k; a failed semaphore read exits with code 5 and
destroys nothing. -/
theorem shim_sigalrm_C6 :
    (∀ k : ℤ, 0 ≤ 1000 + k → exit_on_sigalrm (1000 + k) = (k, true)) ∧
    (∀ v : ℤ, v < 0 → exit_on_sigalrm v = (5, false)) := by
  constructor
  · intro k hk
    unfold exit_on_sigalrm
    rw [if_neg (by omega)]
    refine Prod.ext ?_ rfl
    simp
  · intro v hv
    unfold exit_on_sigalrm
    rw [if_pos hv]

/-- C6 witness: a driver stores 1007, the shim exits 7; a failed read
exits 5. -/
theorem shim_sigalrm_C6_witness :
    exit_on_sigalrm (1000 + 7) = (7, true) ∧
    exit_on_sigalrm (-1) = (5, false) :=
  ⟨shim_sigalrm_C6.1 7 (by norm_num), shim_sigalrm_C6.2 (-1) (by norm_num)⟩

/-- Shallow embedding of is_helper_enabled (kart.c lines 188-192). env is
getenv of the helper-enable variable, none when unset; *env on the empty
string reads the NUL terminator, which differs from the digit zero. -/
def is_helper_enabled (env : Option String) : Bool :=
  match env with
  | none => true
  | some s =>
    match s.data with
    | [] => true
    | c :: _ => if c = '0' then false else true

inductive ShimAction where
  | exec_worker (cmd_path : String) (argv : List String)
  | helper_rendezvous

/-- Shallow embedding of the top-level dispatch in main (kart.c lines
237 and 415-421): enabled proceeds to the socket rendezvous, disabled
replaces the process image with the worker keeping the original argv. -/
def shim_dispatch (env : Option String) (cmd_path : String)
    (argv : List String) : ShimAction :=
  if is_helper_enabled env then .helper_rendezvous
  else .exec_worker cmd_path argv

/-- C7: helper mode is enabled iff the enable variable is absent or its
value does not begin with the character zero; when disabled the shim
execs the worker in place of itself with its original argv, when enabled
it proceeds to the socket rendezvous. -/
theorem helper_enable_gate_C7 :
    ∀ (env : Option String) (cmd_path : String) (argv : List String),
      (is_helper_enabled env = true ↔
        (env = none ∨ ∃ s, env = some s ∧ s.data.head? ≠ some '0')) ∧
      (is_helper_enabled env = false →
        shim_dispatch env cmd_path argv = .exec_worker cmd_path argv) ∧
      (is_helper_enabled env = true →
        shim_dispatch env cmd_path argv = .helper_rendezvous) := by
  intro env cmd_path argv
  refine ⟨?_, ?_, ?_⟩
  · cases env with
    | none => simp [is_helper_enabled]
    | some s =>
      cases hd : s.data with
      | nil => simp [is_helper_enabled, hd]
      | cons c cs =>
        by_cases hc : c = '0' <;> simp [is_helper_enabled, hd, hc]
  · intro h
    unfold shim_dispatch
    rw [h]
    simp
  · intro h
    unfold shim_dispatch
    rw [h]
    simp

/-- C7 witness: the gate applied with the variable set to the string
zero (worker exec) and with the variable unset (rendezvous). -/
theorem helper_enable_gate_C7_witness :
    shim_dispatch (some "0") "kart_cli" ["kart", "status"] =
      .exec_worker "kart_cli" ["kart", "status"] ∧
    shim_dispatch none "kart_cli" ["kart", "status"] = .helper_rendezvous :=
  ⟨(helper_enable_gate_C7 (some "0") "kart_cli" ["kart", "status"]).2.1
      (by decide),
    (helper_enable_gate_C7 none "kart_cli" ["kart", "status"]).2.2 rfl⟩

/-- Shallow embedding of the shim connect-retry loop (kart.c lines
346-351). fuel is the max_retry budget remaining after the decrement
test; the result is (connected, number of connect calls, number of
250 ms sleeps). The attempt index feeds the connect oracle. -/
def connect_poll (connect : ℕ → Bool) : ℕ → ℕ → Bool × ℕ × ℕ
  | i, 0 => if connect i then (true, 1, 0) else (false, 1, 0)
  | i, f + 1 =>
    if connect i then (true, 1, 0)
    else
      let r := connect_poll connect (i + 1) f
      (r.1, r.2.1 + 1, r.2.2 + 1)

inductive RendezvousOutcome where
  | connected (spawned : Bool)
  | fail_exit (code : ℤ)

structure RendezvousTrace where
  outcome : RendezvousOutcome
  helper_argv : List String
  waited_first_child : Bool
  connect_calls : ℕ
  sleeps : ℕ

/-- Shallow embedding of the connect-or-spawn phase of main (kart.c
lines 300-359): if the first connect succeeds nothing is spawned;
otherwise the shim double-forks, the grandchild execs the worker with
argv [cmd_path, helper, --socket, socket_filename], the shim waits on
the first (not the grand-) child and then polls the socket, max_retry =
50, sleeping 250 ms between attempts; exhaustion prints a diagnostic
and returns exit code 2. -/
def shim_rendezvous (cmd_path socket_filename : String)
    (first_connect : Bool) (poll : ℕ → Bool) : RendezvousTrace :=
  if first_connect then
    { outcome := .connected false, helper_argv := [],
      waited_first_child := false, connect_calls := 0, sleeps := 0 }
  else
    let argv := [cmd_path, "helper", "--socket", socket_filename]
    let r := connect_poll poll 0 50
    if r.1 then
      { outcome := .connected true, helper_argv := argv,
        waited_first_child := true, connect_calls := r.2.1,
        sleeps := r.2.2 }
    else
      { outcome := .fail_exit 2, helper_argv := argv,
        waited_first_child := true, connect_calls := r.2.1,
        sleeps := r.2.2 }

/-- C9: when the initial connect fails the shim spawns the helper via
the double fork, waits on the first child, and polls the socket at
250 ms intervals up to the retry cap; if every poll fails it exits with
code 2 after 50 sleeps (51 connect calls in the loop: the immediate one
plus 50 interval-spaced retries). -/
theorem shim_retry_C9 :
    ∀ (cmd_path socket_filename : String) (poll : ℕ → Bool),
      (∀ i, poll i = false) →
      shim_rendezvous cmd_path socket_filename false poll =
        { outcome := .fail_exit 2,
          helper_argv := [cmd_path, "helper", "--socket", socket_filename],
          waited_first_child := true, connect_calls := 51, sleeps := 50 } := by
  intro cmd_path socket_filename poll hfail
  have hpoll : ∀ f i, connect_poll poll i f = (false, f + 1, f) := by
    intro f
    induction f with
    | zero => intro i; simp [connect_poll, hfail]
    | succ f ih => intro i; simp [connect_poll, hfail, ih]
  unfold shim_rendezvous
  rw [if_neg (by simp)]
  simp [hpoll 50 0]

/-- C9 witness: the retry-exhaustion law at a concrete command path,
socket name and always-failing connect oracle. -/
theorem shim_retry_C9_witness :
    shim_rendezvous "kart_cli" "sock" false (fun _ => false) =
      { outcome := .fail_exit 2,
        helper_argv := ["kart_cli", "helper", "--socket", "sock"],
        waited_first_child := true, connect_calls := 51, sleeps := 50 } :=
  shim_retry_C9 "kart_cli" "sock" (fun _ => false) (fun _ => rfl)

/-!
The libkart tree walker (src/libkart/src/kart/tree_walker.cpp and
include/kart/tree_walker.hpp). A tree entry carries its name and, for a
subtree entry, the child entries that repo->tree_entry_to_object(e)
.as_tree().entries() would load: the repository lookup is inlined into
the entry. The C++ vectors entries_stack and heads push, pop and index
at back(); here the head of a Lean list is the top of that stack.
Out-of-range vector indexing (undefined behaviour in C++) is none.
-/

inductive TEntry where
  | blob (name : String)
  | tree (name : String) (children : List TEntry)

/-- The entry's filename(). -/
def TEntry.ename : TEntry → String
  | .blob nm => nm
  | .tree nm _ => nm

/-- Shallow embedding of the entry list _enter_tree builds: each child
paired with rel_path + filename (TreeEntryWithPath). -/
def expand (pre : String) (cs : List TEntry) : List (String × TEntry) :=
  cs.map (fun e0 => (pre ++ e0.ename, e0))

/-- Shallow embedding of TreeEntryIterator state (tree_walker.hpp lines
150-152). -/
structure TreeEntryIterator where
  entries_stack : List (List (String × TEntry))
  heads : List ℕ

/-- Shallow embedding of operator* : entries_stack.back()[heads.back()];
an empty stack or an out-of-range index is undefined behaviour, none. -/
def deref (it : TreeEntryIterator) : Option (String × TEntry) :=
  match it.entries_stack, it.heads with
  | es :: _, h :: _ => es[h]?
  | _, _ => none

/-- Shallow embedding of _enter_tree (tree_walker.cpp lines 98-112): the
path prefix is empty for an empty stack and (**this).rel_path() + "/"
otherwise; the expanded child list is pushed with cursor 0. -/
def enterTree (it : TreeEntryIterator) (cs : List TEntry) :
    Option TreeEntryIterator :=
  match it.entries_stack with
  | [] => some ⟨[expand "" cs], 0 :: it.heads⟩
  | _ :: _ =>
    match deref it with
    | none => none
    | some (p, _) =>
      some ⟨expand (p ++ "/") cs :: it.entries_stack, 0 :: it.heads⟩

/-- heads.back()++ on the stack representation. -/
def bump_heads : List ℕ → List ℕ
  | [] => []
  | h :: t => (h + 1) :: t

/-- Shallow embedding of the while loop of operator++ (tree_walker.cpp
lines 71-85): pop exhausted frames, bumping the parent cursor after each
pop, until the top cursor is in range or the stack is empty. -/
def drain : List (List (String × TEntry)) → List ℕ →
    List (List (String × TEntry)) × List ℕ
  | es :: est, h :: ht =>
    if h < es.length then (es :: est, h :: ht)
    else drain est (bump_heads ht)
  | es, hs => (es, hs)

/-- Shallow embedding of the prefix operator++ (tree_walker.cpp lines
53-88): an empty stack returns the iterator unchanged; otherwise the
current entry is read (undefined behaviour if out of range), a subtree
entry pushes its expanded children while any other entry bumps the top
cursor, and the drain loop then pops exhausted frames. -/
def inc (it : TreeEntryIterator) : Option TreeEntryIterator :=
  match it.heads with
  | [] => some it
  | _ :: _ =>
    match deref it with
    | none => none
    | some (_, e0) =>
      match e0 with
      | .tree _ cs =>
        match enterTree it cs with
        | none => none
        | some it1 =>
          let d := drain it1.entries_stack it1.heads
          some ⟨d.1, d.2⟩
      | .blob _ =>
        let d := drain it.entries_stack (bump_heads it.heads)
        some ⟨d.1, d.2⟩

/-- Shallow embedding of operator== (tree_walker.hpp lines 114-127):
equal stack depths, and when non-empty equal top cursors. -/
def iterEq (a b : TreeEntryIterator) : Bool :=
  if a.heads.length ≠ b.heads.length then false
  else if a.heads.length = 0 then true
  else decide (a.heads.head? = b.heads.head?)

/-- TreeWalker::end(): TreeEntryIterator(nullptr, nullptr). -/
def endIter : TreeEntryIterator := ⟨[], []⟩

/-- TreeWalker::begin(): the constructor enters the root tree, whose
entry list is cs. -/
def beginIter (cs : List TEntry) : Option TreeEntryIterator :=
  enterTree ⟨[], []⟩ cs

mutual

/-- Reference preorder of one stored (rel_path, entry) pair: the entry
itself, then for a subtree its children with prefix rel_path + "/". -/
def preP : String × TEntry → List (String × TEntry)
  | (p, .blob nm) => [(p, .blob nm)]
  | (p, .tree nm cs) => (p, .tree nm cs) :: preL (p ++ "/") cs
termination_by x => sizeOf x.2

/-- Reference preorder of a child list under a path prefix, siblings in
stored order. -/
def preL (pre : String) : List TEntry → List (String × TEntry)
  | [] => []
  | c :: cs => preP (pre ++ c.ename, c) ++ preL pre cs
termination_by cs => sizeOf cs

end

/-- Entries of one frame still to be emitted, starting at cursor h. -/
def frameRem (es : List (String × TEntry)) (h : ℕ) :
    List (String × TEntry) :=
  (es.drop h).flatMap preP

/-- Entries still to be emitted by the outer frames: each outer frame
resumes after its current (already emitted) entry. -/
def remTail : List (List (String × TEntry)) → List ℕ →
    List (String × TEntry)
  | es :: est, h :: ht => frameRem es (h + 1) ++ remTail est ht
  | _, _ => []

/-- Entries still to be emitted by the whole iterator, current entry
first. -/
def remS : List (List (String × TEntry)) → List ℕ →
    List (String × TEntry)
  | es :: est, h :: ht => frameRem es h ++ remTail est ht
  | _, _ => []

/-- Well-formed iterator states: stack and cursor lists share their
length, every cursor is in range, and each frame above the bottom is the
expansion of the tree entry its parent frame's cursor points at. -/
def WFS : List (List (String × TEntry)) → List ℕ → Prop
  | [], [] => True
  | [es], [h] => h < es.length
  | es :: es2 :: est, h :: h2 :: ht =>
    h < es.length ∧
    (∃ p nm cs, es2[h2]? = some (p, TEntry.tree nm cs) ∧
      es = expand (p ++ "/") cs) ∧
    WFS (es2 :: est) (h2 :: ht)
  | _, _ => False

/-- Like WFS but the top cursor may sit one past the end (the transient
state the drain loop consumes). -/
def WFS2 : List (List (String × TEntry)) → List ℕ → Prop
  | [], [] => True
  | [es], [h] => h ≤ es.length
  | es :: es2 :: est, h :: h2 :: ht =>
    h ≤ es.length ∧
    (∃ p nm cs, es2[h2]? = some (p, TEntry.tree nm cs) ∧
      es = expand (p ++ "/") cs) ∧
    WFS (es2 :: est) (h2 :: ht)
  | _, _ => False

/-- Helper: the preorder of one entry is never empty (it starts with the
entry itself). -/
lemma preP_ne_nil (x : String × TEntry) : preP x ≠ [] := by
  obtain ⟨p, e0⟩ := x
  cases e0 <;> simp [preP]

/-- Helper: an expanded child list pending from cursor 0 is exactly the
reference preorder of the children. -/
lemma flatMap_expand (pre : String) (cs : List TEntry) :
    (expand pre cs).flatMap preP = preL pre cs := by
  induction cs with
  | nil => simp [expand, preL]
  | cons c cs ih =>
    simp only [expand, List.map_cons, List.flatMap_cons, preL]
    rw [← ih]
    simp [expand]

/-- Helper: frameRem at cursor 0 of an expansion. -/
lemma frameRem_expand (pre : String) (cs : List TEntry) :
    frameRem (expand pre cs) 0 = preL pre cs := by
  unfold frameRem
  rw [List.drop_zero]
  exact flatMap_expand pre cs

/-- Helper: the top cursor of a well-formed state is in range. -/
lemma wfs_top_lt : ∀ (es : List (String × TEntry)) est (h : ℕ) ht,
    WFS (es :: est) (h :: ht) → h < es.length := by
  intro es est h ht hw
  match est, ht with
  | [], [] => exact hw
  | _ :: _, _ :: _ => exact hw.1
  | [], _ :: _ => exact False.elim hw
  | _ :: _, [] => exact False.elim hw

/-- Helper: a well-formed state with no cursors has no frames. -/
lemma wfs_nil_stack : ∀ stack, WFS stack [] → stack = [] := by
  intro stack hw
  match stack with
  | [] => rfl
  | [es] => exact False.elim hw
  | es :: es2 :: est => exact False.elim hw

/-- Helper: bumping the top cursor of a well-formed state yields at most
a one-past-the-end cursor. -/
lemma wfs2_bump : ∀ (es : List (String × TEntry)) est (h : ℕ) ht,
    WFS (es :: est) (h :: ht) → WFS2 (es :: est) ((h + 1) :: ht) := by
  intro es est h ht hw
  match est, ht with
  | [], [] => exact Nat.succ_le_of_lt hw
  | _ :: _, _ :: _ => exact ⟨Nat.succ_le_of_lt hw.1, hw.2.1, hw.2.2⟩
  | [], _ :: _ => exact False.elim hw
  | _ :: _, [] => exact False.elim hw

/-- Helper: a relaxed state whose top cursor is strictly in range is
well-formed. -/
lemma wfs_of_wfs2_lt : ∀ (es : List (String × TEntry)) est (h : ℕ) ht,
    WFS2 (es :: est) (h :: ht) → h < es.length →
    WFS (es :: est) (h :: ht) := by
  intro es est h ht hw hlt
  match est, ht with
  | [], [] => exact hlt
  | _ :: _, _ :: _ => exact ⟨hlt, hw.2.1, hw.2.2⟩
  | [], _ :: _ => exact False.elim hw
  | _ :: _, [] => exact False.elim hw

/-- Helper: the drain loop restores well-formedness and leaves the
pending-entry list unchanged. -/
lemma drain_spec : ∀ (stack : List (List (String × TEntry))) (hs : List ℕ),
    WFS2 stack hs →
    WFS (drain stack hs).1 (drain stack hs).2 ∧
    remS (drain stack hs).1 (drain stack hs).2 = remS stack hs := by
  intro stack
  induction stack with
  | nil =>
    intro hs hw
    match hs with
    | [] => exact ⟨trivial, rfl⟩
    | h :: ht => exact False.elim hw
  | cons es est ih =>
    intro hs hw
    match hs with
    | [] =>
      cases est with
      | nil => exact False.elim hw
      | cons a b => exact False.elim hw
    | h :: ht =>
      by_cases hlt : h < es.length
      · have hdr : drain (es :: est) (h :: ht) = (es :: est, h :: ht) := by
          simp only [drain, if_pos hlt]
        rw [hdr]
        exact ⟨wfs_of_wfs2_lt es est h ht hw hlt, rfl⟩
      · have hdr : drain (es :: est) (h :: ht) = drain est (bump_heads ht) := by
          simp only [drain, if_neg hlt]
        have hrem0 : frameRem es h = [] := by
          unfold frameRem
          rw [List.drop_eq_nil_of_le (Nat.le_of_not_lt hlt)]
          rfl
        rw [hdr]
        match est, ht with
        | [], [] =>
          refine ⟨trivial, ?_⟩
          simp [drain, bump_heads, remS, remTail, hrem0]
        | es2 :: est2, h2 :: ht2 =>
          obtain ⟨hle, hlink, hrest⟩ := hw
          have hw2 : WFS2 (es2 :: est2) ((h2 + 1) :: ht2) :=
            wfs2_bump es2 est2 h2 ht2 hrest
          obtain ⟨ihw, ihrem⟩ := ih ((h2 + 1) :: ht2) hw2
          rw [show bump_heads (h2 :: ht2) = (h2 + 1) :: ht2 from rfl]
          refine ⟨ihw, ?_⟩
          rw [ihrem]
          simp [remS, remTail, hrem0]
        | [], h2 :: ht2 => exact False.elim hw
        | es2 :: est2, [] => exact False.elim hw

/-- Helper: one increment of a well-formed, non-exhausted iterator
yields the current entry, preserves well-formedness, and consumes
exactly the head of the pending-entry list. -/
lemma inc_spec (it : TreeEntryIterator)
    (hwf : WFS it.entries_stack it.heads) (hne : it.heads ≠ []) :
    ∃ x it2, deref it = some x ∧ inc it = some it2 ∧
      WFS it2.entries_stack it2.heads ∧
      remS it.entries_stack it.heads
        = x :: remS it2.entries_stack it2.heads := by
  obtain ⟨stack, hs⟩ := it
  match stack, hs with
  | stack, [] => exact absurd rfl hne
  | [], h :: ht => exact False.elim hwf
  | es :: est, h :: ht =>
    simp only at hwf hne ⊢
    have hlt : h < es.length := wfs_top_lt es est h ht hwf
    have hderef : deref ⟨es :: est, h :: ht⟩ = some es[h] := by
      simp [deref, List.getElem?_eq_getElem hlt]
    have hsplit : frameRem es h = preP es[h] ++ frameRem es (h + 1) := by
      unfold frameRem
      rw [List.drop_eq_getElem_cons hlt, List.flatMap_cons]
    rcases hget : es[h] with ⟨p, e0⟩
    cases e0 with
    | blob nm =>
      have hw2 : WFS2 (es :: est) ((h + 1) :: ht) :=
        wfs2_bump es est h ht hwf
      obtain ⟨dwf, drem⟩ := drain_spec (es :: est) ((h + 1) :: ht) hw2
      refine ⟨(p, .blob nm),
        ⟨(drain (es :: est) ((h + 1) :: ht)).1,
          (drain (es :: est) ((h + 1) :: ht)).2⟩, ?_, ?_, dwf, ?_⟩
      · rw [hderef, hget]
      · simp only [inc, hderef, hget, bump_heads]
      · rw [show remS (es :: est) (h :: ht)
            = frameRem es h ++ remTail est ht from rfl, hsplit, hget]
        simp only
        rw [drem]
        simp [preP, remS]
    | tree nm cs =>
      have henter : enterTree ⟨es :: est, h :: ht⟩ cs
          = some ⟨expand (p ++ "/") cs :: es :: est, 0 :: h :: ht⟩ := by
        simp only [enterTree, hderef, hget]
      have hw2 : WFS2 (expand (p ++ "/") cs :: es :: est) (0 :: h :: ht) := by
        refine ⟨Nat.zero_le _, ⟨p, nm, cs, ?_, rfl⟩, hwf⟩
        rw [List.getElem?_eq_getElem hlt, hget]
      obtain ⟨dwf, drem⟩ := drain_spec _ _ hw2
      refine ⟨(p, .tree nm cs),
        ⟨(drain (expand (p ++ "/") cs :: es :: est) (0 :: h :: ht)).1,
          (drain (expand (p ++ "/") cs :: es :: est) (0 :: h :: ht)).2⟩,
        ?_, ?_, dwf, ?_⟩
      · rw [hderef, hget]
      · simp only [inc, hderef, hget, henter]
      · rw [show remS (es :: est) (h :: ht)
            = frameRem es h ++ remTail est ht from rfl, hsplit, hget]
        simp only
        rw [drem]
        simp [preP, remS, remTail, frameRem_expand]

/-- The observable behaviour of iterating: fuel-bounded loop that
dereferences and increments until the frame stack is empty, collecting
the visited (rel_path, entry) pairs and the final iterator. -/
def collect : ℕ → TreeEntryIterator →
    Option (List (String × TEntry) × TreeEntryIterator)
  | 0, it => if it.heads = [] then some ([], it) else none
  | f + 1, it =>
    match it.heads with
    | [] => some ([], it)
    | _ :: _ =>
      match deref it, inc it with
      | some x, some it2 =>
        match collect f it2 with
        | none => none
        | some (xs, itF) => some (x :: xs, itF)
      | _, _ => none

/-- Helper: a well-formed iterator, run with fuel equal to its number of
pending entries, collects exactly those entries and halts at the end
sentinel. -/
lemma collect_spec : ∀ (k : ℕ) (it : TreeEntryIterator),
    WFS it.entries_stack it.heads →
    (remS it.entries_stack it.heads).length = k →
    collect k it = some (remS it.entries_stack it.heads, endIter) := by
  intro k
  induction k with
  | zero =>
    intro it hwf hlen
    obtain ⟨stack, hs⟩ := it
    match stack, hs with
    | stack, [] =>
      have hst : stack = [] := wfs_nil_stack stack hwf
      subst hst
      simp [collect, remS, endIter]
    | [], h :: ht => exact False.elim hwf
    | es :: est, h :: ht =>
      exfalso
      simp only at hwf hlen
      have hlt : h < es.length := wfs_top_lt es est h ht hwf
      have hsplit : frameRem es h = preP es[h] ++ frameRem es (h + 1) := by
        unfold frameRem
        rw [List.drop_eq_getElem_cons hlt, List.flatMap_cons]
      rw [show remS (es :: est) (h :: ht)
          = frameRem es h ++ remTail est ht from rfl, hsplit,
        List.append_assoc, List.length_append] at hlen
      have h0 : (preP es[h]).length = 0 := by omega
      exact preP_ne_nil es[h] (List.length_eq_zero.mp h0)
  | succ k ih =>
    intro it hwf hlen
    have hne : it.heads ≠ [] := by
      intro hnil
      rw [hnil] at hwf
      have hst := wfs_nil_stack _ hwf
      rw [hnil, hst] at hlen
      simp [remS] at hlen
    obtain ⟨x, it2, hderef, hinc, hwf2, hrem⟩ := inc_spec it hwf hne
    have hlen2 : (remS it2.entries_stack it2.heads).length = k := by
      rw [hrem] at hlen
      simpa using hlen
    rcases hhs : it.heads with _ | ⟨h, ht⟩
    · exact absurd hhs hne
    · have hcoll := ih it2 hwf2 hlen2
      rw [hhs] at hrem
      rw [hrem]
      simp only [collect, hhs]
      simp only [hderef, hinc]
      simp [hcoll]

/-- C8 counterexample: on the empty root tree, begin() builds an
iterator with one empty frame and cursor 0; having yielded all (zero)
entries, it does not compare equal to the end sentinel, and
dereferencing it is out-of-range (undefined behaviour in the C++). -/
theorem tree_walker_C8_cex :
    beginIter [] = some ⟨[[]], [0]⟩ ∧
    iterEq ⟨[[]], [0]⟩ endIter = false ∧
    deref ⟨[[]], [0]⟩ = none := by
  refine ⟨rfl, by simp [iterEq, endIter], rfl⟩

/-- C8 (amended): for every finite tree whose root has at least one
entry, the iterator yields each entry exactly once in depth-first
preorder (a subtree entry before anything beneath it, siblings in stored
order, paths accumulated from the root), and after the last entry at
depth 0 it equals the end sentinel; iterator equality holds iff stack
depths agree and, when non-empty, the top cursors agree. -/
theorem tree_walker_preorder_C8 :
    (∀ cs : List TEntry, cs ≠ [] →
      ∃ it0, beginIter cs = some it0 ∧
        collect (preL "" cs).length it0 = some (preL "" cs, endIter)) ∧
    (∀ a b : TreeEntryIterator, iterEq a b = true ↔
      (a.heads.length = b.heads.length ∧
        (a.heads ≠ [] → a.heads.head? = b.heads.head?))) := by
  constructor
  · intro cs hcs
    refine ⟨⟨[expand "" cs], [0]⟩, rfl, ?_⟩
    have hlen : 0 < (expand "" cs).length := by
      unfold expand
      rw [List.length_map]
      exact List.length_pos.mpr hcs
    have hwf : WFS [expand "" cs] [0] := hlen
    have hrem : remS [expand "" cs] [0] = preL "" cs := by
      rw [show remS [expand "" cs] [0]
          = frameRem (expand "" cs) 0 ++ remTail [] [] from rfl,
        frameRem_expand]
      simp [remTail]
    have := collect_spec (preL "" cs).length ⟨[expand "" cs], [0]⟩ hwf
      (by simpa using congrArg List.length hrem)
    simpa [hrem] using this
  · intro a b
    unfold iterEq
    by_cases hlen : a.heads.length = b.heads.length
    · rw [if_neg (by simpa using hlen)]
      by_cases h0 : a.heads.length = 0
      · rw [if_pos h0]
        simp only [true_iff]
        refine ⟨hlen, ?_⟩
        intro hne
        exact absurd (List.length_eq_zero.mp h0) hne
      · rw [if_neg h0]
        simp only [decide_eq_true_eq]
        constructor
        · intro hh
          exact ⟨hlen, fun _ => hh⟩
        · intro ⟨_, hh⟩
          exact hh (fun hnil => h0 (by rw [hnil]; rfl))
    · rw [if_pos (by simpa using hlen)]
      constructor
      · intro hff
        exact absurd hff (by simp)
      · intro hcon
        exact absurd hcon.1 hlen

/-- C8 witness: the amended preorder law applied to a concrete two-level
tree. -/
theorem tree_walker_preorder_C8_witness :
    ∃ it0, beginIter [TEntry.tree "a" [TEntry.blob "b"], TEntry.blob "c"]
        = some it0 ∧
      collect (preL "" [TEntry.tree "a" [TEntry.blob "b"],
          TEntry.blob "c"]).length it0
        = some (preL "" [TEntry.tree "a" [TEntry.blob "b"],
            TEntry.blob "c"], endIter) :=
  tree_walker_preorder_C8.1 [TEntry.tree "a" [TEntry.blob "b"],
    TEntry.blob "c"] (by simp)

/-- C10: incrementing an iterator whose frame stack is exhausted (the
end sentinel in particular) is a no-op returning the iterator unchanged;
no frame is dereferenced, and the result still compares equal to
itself. -/
theorem tree_walker_end_inc_C10 :
    ∀ it : TreeEntryIterator, it.heads = [] →
      inc it = some it ∧ iterEq it it = true := by
  intro it h
  constructor
  · simp only [inc, h]
  · simp [iterEq]

/-- C10 witness: incrementing the end sentinel. -/
theorem tree_walker_end_inc_C10_witness :
    inc endIter = some endIter ∧ iterEq endIter endIter = true :=
  tree_walker_end_inc_C10 endIter rfl

end Kart
